import Mathlib

/-!
Verification of the Content Sync Engine of the wordpress-tools scripts
(wp-import.js / wp-export.js / lib/media-handler.js).

The JavaScript sources are shallowly embedded: JSON-ish runtime values
become the inductive `JSValue`, JS objects and Maps become association
lists in insertion order, and each source function becomes a Lean
function with the same name and the same branch structure.
-/

/-- A JSON-ish JavaScript runtime value, as handled by the scripts:
`null`/`undefined`, strings, numbers, booleans, arrays and plain objects
(an object is its `Object.entries` list, keys unique, insertion order). -/
inductive JSValue where
  | null : JSValue
  | undef : JSValue
  | str : String → JSValue
  | num : Int → JSValue
  | bool : Bool → JSValue
  | arr : List JSValue → JSValue
  | obj : List (String × JSValue) → JSValue

/-- wp-export.js `isEmpty(value)`:
`null`/`undefined` are empty; `value === ''` is empty; `value === 0` is
explicitly not empty; an array is empty iff it has length 0; any other
object is empty iff `Object.keys(value).length === 0`; every remaining
value (non-zero numbers, booleans, non-empty strings) is not empty. -/
def isEmpty : JSValue → Bool
  | .null => true
  | .undef => true
  | .str s => s = ""
  | .num _ => false
  | .bool _ => false
  | .arr xs => xs.isEmpty
  | .obj kvs => kvs.isEmpty

/-- wp-export.js `hasMeaningfulContent(obj)`:
`Object.values(obj).some(value => !isEmpty(value))`. -/
def hasMeaningfulContent (o : List (String × JSValue)) : Bool :=
  o.any fun kv => ! isEmpty kv.2

/-- The keys of a bag whose values the emptiness rule drops. -/
def emptyKeys (bag : List (String × JSValue)) : List String :=
  (bag.filter fun kv => isEmpty kv.2).map Prod.fst

/-- The keys of a bag whose values the emptiness rule retains. -/
def retainedKeys (bag : List (String × JSValue)) : List String :=
  (bag.filter fun kv => ! isEmpty kv.2).map Prod.fst

/-- C3: `isEmpty` holds exactly for `null`, `undefined`, the empty string,
empty arrays and empty objects; it does not hold for the number 0 nor for
the boolean false; and on the bag x ↦ "", y ↦ [], z ↦ 0 the emptiness rule
drops exactly x and y and retains exactly z. -/
theorem c3_isEmpty_characterization :
    (∀ v : JSValue, isEmpty v = true ↔
      (v = .null ∨ v = .undef ∨ v = .str "" ∨ v = .arr [] ∨ v = .obj [])) ∧
    isEmpty (.num 0) = false ∧
    isEmpty (.bool false) = false ∧
    emptyKeys [("x", .str ""), ("y", .arr []), ("z", .num 0)] = ["x", "y"] ∧
    retainedKeys [("x", .str ""), ("y", .arr []), ("z", .num 0)] = ["z"] := by
  refine ⟨fun v => ?_, rfl, rfl, by decide, by decide⟩
  cases v with
  | null => simp [isEmpty]
  | undef => simp [isEmpty]
  | str s =>
      simp only [isEmpty, decide_eq_true_eq]
      constructor
      · intro h; exact Or.inr (Or.inr (Or.inl (by rw [h])))
      · rintro (h | h | h | h | h) <;> simp_all
  | num n => simp [isEmpty]
  | bool b => simp [isEmpty]
  | arr xs =>
      simp only [isEmpty, List.isEmpty_iff]
      constructor
      · intro h; exact Or.inr (Or.inr (Or.inr (Or.inl (by rw [h]))))
      · rintro (h | h | h | h | h) <;> simp_all
  | obj kvs =>
      simp only [isEmpty, List.isEmpty_iff]
      constructor
      · intro h; exact Or.inr (Or.inr (Or.inr (Or.inr (by rw [h]))))
      · rintro (h | h | h | h | h) <;> simp_all

/-! ## Import reconciler (wp-import.js `importItem`, action selection) -/

/-- wp-import.js `importItem`, lines determining the action:
`action` starts as `'skip'`; `create`+missing gives `'create'`;
`update`+existing gives `'update'`; `sync` gives `'update'` when the item
exists and `'create'` otherwise. `existing` says whether a remote item
with the same slug was found. -/
def decideAction (importMode : String) (existing : Bool) : String :=
  if importMode = "create" ∧ existing = false then "create"
  else if importMode = "update" ∧ existing = true then "update"
  else if importMode = "sync" then (if existing then "update" else "create")
  else "skip"

/-- wp-import.js `importItem`, skip branch: the reported reason is
`existingItem ? 'exists (mode=create)' : 'not found (mode=update)'`. -/
def skipReason (existing : Bool) : String :=
  if existing then "exists (mode=create)" else "not found (mode=update)"

/-- C1: the reconciler follows the declared transition table —
create+missing→CREATE, create+existing→SKIP, update+existing→UPDATE,
update+missing→SKIP, sync+existing→UPDATE, sync+missing→CREATE — and a
skipped result always carries the matching reason string: it begins with
"exists" exactly in the create+existing case and with "not found" exactly
in the update+missing case. -/
theorem c1_reconciler_table :
    decideAction "create" false = "create" ∧
    decideAction "create" true = "skip" ∧
    decideAction "update" true = "update" ∧
    decideAction "update" false = "skip" ∧
    decideAction "sync" true = "update" ∧
    decideAction "sync" false = "create" ∧
    skipReason true = "exists (mode=create)" ∧
    skipReason false = "not found (mode=update)" ∧
    "exists".data.isPrefixOf (skipReason true).data = true ∧
    "not found".data.isPrefixOf (skipReason false).data = true := by
  refine ⟨rfl, ?_, rfl, ?_, rfl, rfl, rfl, rfl, by decide, by decide⟩ <;> decide

/-! ## Plugin prefix classifier (wp-export.js `groupMetaByPlugin`) -/

/-- A plugin descriptor as built by `fetchInstalledPlugins` /
`generatePrefixesFromSlug`: canonical slug, human name, candidate
key-prefixes. Auto-discovered synthetic descriptors (created inside
`groupMetaByPlugin`) carry `autoDetected = true` and no prefix list. -/
structure Plugin where
  slug : String
  name : String
  prefixes : List String
  autoDetected : Bool := false

/-- JS `str.startsWith(pre)`. -/
def jsStartsWith (s pre : String) : Bool :=
  pre.data.isPrefixOf s.data

/-- `Math.max(...prefixes.map(p => p.length))` as used by the classifier
sort. `Math.max()` of an empty spread is `-Infinity`; every descriptor the
scripts build carries at least one prefix, so `-1` is a faithful stand-in
for the empty case. -/
def maxPrefixLen (ps : List String) : Int :=
  ps.foldl (fun acc p => max acc (p.length : Int)) (-1)

/-- One step of the stable sort `[...plugins].sort((a, b) => maxB - maxA)`:
insert `x` before the first element whose longest prefix is not longer,
keeping the original order among ties (JS `Array.prototype.sort` is
stable). -/
def insertDesc (x : Plugin) : List Plugin → List Plugin
  | [] => [x]
  | y :: ys =>
      if maxPrefixLen x.prefixes < maxPrefixLen y.prefixes then y :: insertDesc x ys
      else x :: y :: ys

/-- wp-export.js `groupMetaByPlugin`: `[...plugins].sort((a, b) => maxB - maxA)`
— plugins ordered by their longest candidate prefix, descending, stably. -/
def sortPlugins (plugins : List Plugin) : List Plugin :=
  plugins.foldr insertDesc []

/-- WordPress internal meta key prefixes skipped by `groupMetaByPlugin`. -/
def skipPrefixes : List String :=
  ["_edit_", "_wp_", "_oembed_", "_menu_item_", "_customize_"]

/-- WordPress internal meta keys skipped by `groupMetaByPlugin`. -/
def skipKeys : List String :=
  ["_thumbnail_id", "_encloseme", "_pingme"]

/-- The candidate patterns tried for one prefix in `groupMetaByPlugin`:
`prefix + '_'`, `prefix + '-'`, `'_' + prefix + '_'`, `'_' + prefix`;
a key matches when it starts with one of them or equals the prefix. -/
def matchesPlugin (key : String) (pl : Plugin) : Bool :=
  pl.prefixes.any fun pre =>
    ([pre ++ "_", pre ++ "-", "_" ++ pre ++ "_", "_" ++ pre].any
      fun p => jsStartsWith key p) || key == pre

/-- JS objects / Maps as association lists in insertion order:
lookup (`m.get(k)` / `m[k]`). -/
def mapGet {α : Type} (m : List (String × α)) (k : String) : Option α :=
  (m.find? fun kv => kv.1 == k).map fun kv => kv.2

/-- JS objects / Maps: `m.set(k, v)` / `m[k] = v` — replace in place when
the key exists, append otherwise. -/
def mapSet {α : Type} (m : List (String × α)) (k : String) (v : α) :
    List (String × α) :=
  match m with
  | [] => [(k, v)]
  | (k1, v1) :: t => if k1 == k then (k, v) :: t else (k1, v1) :: mapSet t k v

/-- `Object.assign(target, source)`: set every source entry in order. -/
def objAssign (target source : List (String × JSValue)) :
    List (String × JSValue) :=
  source.foldl (fun acc kv => mapSet acc kv.1 kv.2) target

/-- One `grouped` entry of `groupMetaByPlugin`: `{ plugin, meta: {...} }`. -/
structure GroupedEntry where
  plugin : Plugin
  meta : List (String × JSValue)

/-- ASCII letter or digit, what `[a-z0-9]` with the `i` flag accepts. -/
def alnum (c : Char) : Bool :=
  (97 ≤ c.toNat && c.toNat ≤ 122) || (65 ≤ c.toNat && c.toNat ≤ 90) ||
    (48 ≤ c.toNat && c.toNat ≤ 57)

/-- `groupMetaByPlugin` auto-detection: the leading-token prefix of a key,
via `key.match(/^(_[a-z0-9]+)_/i)` when the key starts with `_` and
`key.match(/^([a-z0-9]+)_/i)` otherwise; `none` models a failed match. -/
def extractPrefix (key : String) : Option String :=
  match key.data with
  | [] => none
  | c :: rest =>
      if c == '_' then
        let run := rest.takeWhile alnum
        if run.isEmpty then none
        else match rest.drop run.length with
          | '_' :: _ => some (String.mk ('_' :: run))
          | _ => none
      else
        let run := (c :: rest).takeWhile alnum
        if run.isEmpty then none
        else match (c :: rest).drop run.length with
          | '_' :: _ => some (String.mk run)
          | _ => none

/-- `prefix.replace(/^_/, '').toLowerCase().replace(/_/g, '-')`: the slug of
an auto-discovered group. -/
def slugOfPre (pre : String) : String :=
  let d := match pre.data with
    | '_' :: t => t
    | l => l
  String.mk (d.map fun c => if c.toLower == '_' then '-' else c.toLower)

/-- First loop of `groupMetaByPlugin`: match each non-empty, non-internal
key against the sorted descriptors (first matching descriptor wins) and
collect per-plugin groups plus the set of assigned keys. -/
def phase1Go (sp : List Plugin) :
    List (String × JSValue) → List (String × GroupedEntry) × List String →
      List (String × GroupedEntry) × List String
  | [], st => st
  | (key, value) :: rest, (grouped, assigned) =>
      if isEmpty value then phase1Go sp rest (grouped, assigned)
      else if skipKeys.contains key then phase1Go sp rest (grouped, assigned)
      else if skipPrefixes.any (fun p => jsStartsWith key p) then
        phase1Go sp rest (grouped, assigned)
      else match sp.find? (matchesPlugin key) with
        | some pl =>
            let g := match mapGet grouped pl.slug with
              | some e => e
              | none => ⟨pl, []⟩
            phase1Go sp rest
              (mapSet grouped pl.slug ⟨g.plugin, mapSet g.meta key value⟩,
                assigned ++ [key])
        | none => phase1Go sp rest (grouped, assigned)

/-- Second loop of `groupMetaByPlugin`: auto-detect unknown plugins from the
remaining meta keys, bucketing by extracted prefix (of length ≥ 2). -/
def phase2Go :
    List (String × JSValue) →
      List (String × List (String × JSValue)) × List String →
      List (String × List (String × JSValue)) × List String
  | [], st => st
  | (key, value) :: rest, (unknown, assigned) =>
      if assigned.contains key || isEmpty value then
        phase2Go rest (unknown, assigned)
      else if skipKeys.contains key then phase2Go rest (unknown, assigned)
      else if skipPrefixes.any (fun p => jsStartsWith key p) then
        phase2Go rest (unknown, assigned)
      else match extractPrefix key with
        | some pre =>
            if 2 ≤ pre.length then
              let g := (mapGet unknown pre).getD []
              phase2Go rest (mapSet unknown pre (mapSet g key value),
                assigned ++ [key])
            else phase2Go rest (unknown, assigned)
        | none => phase2Go rest (unknown, assigned)

/-- Third loop of `groupMetaByPlugin`: add each auto-detected group with at
least one key and meaningful content under its derived slug, merging into
an existing group of the same slug via `Object.assign`. -/
def phase3Go :
    List (String × List (String × JSValue)) →
      List (String × GroupedEntry) → List (String × GroupedEntry)
  | [], grouped => grouped
  | (pre, data) :: rest, grouped =>
      if 1 ≤ data.length ∧ hasMeaningfulContent data then
        let slug := slugOfPre pre
        match mapGet grouped slug with
        | none =>
            phase3Go rest (mapSet grouped slug
              ⟨{ slug := slug, name := slug, prefixes := [],
                 autoDetected := true }, data⟩)
        | some e =>
            phase3Go rest (mapSet grouped slug ⟨e.plugin, objAssign e.meta data⟩)
      else phase3Go rest grouped

/-- Last loop of `groupMetaByPlugin`: collect the unassigned, non-empty,
non-internal keys that still look like plugin meta (contain an underscore
and do not start with one). -/
def remainingGo (assigned : List String) :
    List (String × JSValue) → List (String × JSValue) →
      List (String × JSValue)
  | [], remaining => remaining
  | (key, value) :: rest, remaining =>
      if !assigned.contains key ∧ !isEmpty value then
        if !skipKeys.contains key ∧ !skipPrefixes.any (fun p => jsStartsWith key p) then
          if key.data.contains '_' ∧ !jsStartsWith key "_" then
            remainingGo assigned rest (mapSet remaining key value)
          else remainingGo assigned rest remaining
        else remainingGo assigned rest remaining
      else remainingGo assigned rest remaining

/-- The result of `groupMetaByPlugin`: `{ grouped, remaining }` where
`remaining` is `null` unless it has meaningful content. -/
structure MetaGrouping where
  grouped : List (String × GroupedEntry)
  remaining : Option (List (String × JSValue))

/-- wp-export.js `groupMetaByPlugin(meta, plugins)`. -/
def groupMetaByPlugin (meta : List (String × JSValue)) (plugins : List Plugin) :
    MetaGrouping :=
  let sp := sortPlugins plugins
  let p1 := phase1Go sp meta ([], [])
  let p2 := phase2Go meta ([], p1.2)
  let grouped2 := phase3Go p2.1 p1.1
  let remaining := remainingGo p2.2 meta []
  ⟨grouped2, if hasMeaningfulContent remaining then some remaining else none⟩

/-- Membership in an `insertDesc` insertion. -/
theorem mem_insertDesc {z x : Plugin} {l : List Plugin} :
    z ∈ insertDesc x l ↔ z = x ∨ z ∈ l := by
  induction l with
  | nil => simp [insertDesc]
  | cons y ys ih =>
      simp only [insertDesc]
      split <;> simp only [List.mem_cons, ih] <;> tauto

/-- `insertDesc` preserves the descending-by-longest-prefix order. -/
theorem sorted_insertDesc {x : Plugin} {l : List Plugin}
    (h : l.Sorted fun a b => maxPrefixLen b.prefixes ≤ maxPrefixLen a.prefixes) :
    (insertDesc x l).Sorted
      fun a b => maxPrefixLen b.prefixes ≤ maxPrefixLen a.prefixes := by
  induction l with
  | nil => simp [insertDesc]
  | cons y ys ih =>
      simp only [List.sorted_cons] at h
      simp only [insertDesc]
      split
      · rename_i hlt
        rw [List.sorted_cons]
        refine ⟨fun b hb => ?_, ih h.2⟩
        rcases mem_insertDesc.mp hb with rfl | hb
        · exact le_of_lt hlt
        · exact h.1 b hb
      · rename_i hge
        rw [List.sorted_cons]
        refine ⟨fun b hb => ?_, List.sorted_cons.mpr h⟩
        rcases List.mem_cons.mp hb with rfl | hb
        · exact not_lt.mp hge
        · exact le_trans (h.1 b hb) (not_lt.mp hge)

/-- `sortPlugins` output is sorted by longest candidate prefix, descending. -/
theorem sorted_sortPlugins (l : List Plugin) :
    (sortPlugins l).Sorted
      fun a b => maxPrefixLen b.prefixes ≤ maxPrefixLen a.prefixes := by
  induction l with
  | nil => simp [sortPlugins]
  | cons x xs ih => exact sorted_insertDesc ih

/-- C4 scenario: a descriptor whose only prefix is "seo". -/
def pluginSeo : Plugin := { slug := "seo", name := "seo", prefixes := ["seo"] }

/-- C4 scenario: a descriptor whose only prefix is "seo_pro". -/
def pluginSeoPro : Plugin :=
  { slug := "seo_pro", name := "seo_pro", prefixes := ["seo_pro"] }

/-- C4 scenario: a bag holding only the key "seo_pro_title". -/
def c4bag : List (String × JSValue) := [("seo_pro_title", .str "T")]

/-- C4: the classifier tries descriptors in order of their longest
candidate prefix, descending (the sort is ordered that way for every
descriptor list), and on the bag {seo_pro_title} with descriptors "seo"
and "seo_pro" the key lands in the "seo_pro" group — and in no other —
for both input orders of the descriptors. -/
theorem c4_longest_prefix_priority :
    (∀ l : List Plugin, (sortPlugins l).Sorted
      fun a b => maxPrefixLen b.prefixes ≤ maxPrefixLen a.prefixes) ∧
    ((groupMetaByPlugin c4bag [pluginSeo, pluginSeoPro]).grouped.map
      fun g => (g.1, g.2.meta.map Prod.fst)) = [("seo_pro", ["seo_pro_title"])] ∧
    ((groupMetaByPlugin c4bag [pluginSeoPro, pluginSeo]).grouped.map
      fun g => (g.1, g.2.meta.map Prod.fst)) = [("seo_pro", ["seo_pro_title"])] :=
  ⟨sorted_sortPlugins, by decide, by decide⟩

/-! ## Per-key characterization of `groupMetaByPlugin` (claim C2) -/

/-- Where the first classifier loop sends a key: `none` when the key is
empty-valued, internal, or matches no descriptor; otherwise the first
matching descriptor of the sorted list. -/
def phase1Target (sp : List Plugin) (k : String) (v : JSValue) : Option Plugin :=
  if isEmpty v then none
  else if skipKeys.contains k then none
  else if skipPrefixes.any (fun p => jsStartsWith k p) then none
  else sp.find? (matchesPlugin k)

/-- Where the auto-detection loop sends a key: the extracted prefix of
length ≥ 2, for keys the first loop left unassigned and that are not
empty-valued or internal. -/
def phase2Pre (sp : List Plugin) (k : String) (v : JSValue) : Option String :=
  if (phase1Target sp k v).isSome || isEmpty v then none
  else if skipKeys.contains k then none
  else if skipPrefixes.any (fun p => jsStartsWith k p) then none
  else match extractPrefix k with
    | some pre => if 2 ≤ pre.length then some pre else none
    | none => none

/-- The remaining-bucket test of the last classifier loop: the key
contains an underscore and does not start with one. -/
def looksLikePluginMeta (k : String) : Bool :=
  k.data.contains '_' && !jsStartsWith k "_"

/-- The final destination of one key of the bag. -/
inductive KeyClass where
  | dropped : KeyClass
  | grouped : String → KeyClass
  | remaining : KeyClass
deriving DecidableEq

/-- Spec-level per-key classification: which of the three buckets
(a named group, the ungrouped remainder, or dropped) a key ends up in. -/
def classifyKey (sp : List Plugin) (k : String) (v : JSValue) : KeyClass :=
  match phase1Target sp k v with
  | some pl => .grouped pl.slug
  | none =>
      match phase2Pre sp k v with
      | some pre => .grouped (slugOfPre pre)
      | none =>
          if !isEmpty v && !skipKeys.contains k &&
              !skipPrefixes.any (fun p => jsStartsWith k p) &&
              looksLikePluginMeta k then .remaining
          else .dropped

/-- Key `k` is present in the group of slug `s`. -/
def inG (grouped : List (String × GroupedEntry)) (s k : String) : Prop :=
  ∃ e, mapGet grouped s = some e ∧ k ∈ e.meta.map Prod.fst

/-- Key `k` is present in auto-detected bucket `pre`. -/
def inU (unknown : List (String × List (String × JSValue))) (pre k : String) :
    Prop :=
  ∃ data, mapGet unknown pre = some data ∧ k ∈ data.map Prod.fst

/-- Key `k` is present in the returned remaining bucket. -/
def inRem (r : MetaGrouping) (k : String) : Prop :=
  ∃ rem, r.remaining = some rem ∧ k ∈ rem.map Prod.fst

theorem mapGet_cons_self {α : Type} (k1 : String) (v1 : α)
    (t : List (String × α)) : mapGet ((k1, v1) :: t) k1 = some v1 := by
  simp [mapGet, List.find?_cons_of_pos]

theorem mapGet_cons_ne {α : Type} (k1 : String) (v1 : α)
    (t : List (String × α)) {s : String} (h : k1 ≠ s) :
    mapGet ((k1, v1) :: t) s = mapGet t s := by
  have hb : (k1 == s) = false := beq_eq_false_iff_ne.mpr h
  simp [mapGet, List.find?, hb]

theorem mapSet_cons_self {α : Type} (k1 : String) (v1 v : α)
    (t : List (String × α)) : mapSet ((k1, v1) :: t) k1 v = (k1, v) :: t := by
  simp [mapSet]

theorem mapSet_cons_ne {α : Type} (k1 : String) (v1 v : α)
    (t : List (String × α)) {k : String} (h : k1 ≠ k) :
    mapSet ((k1, v1) :: t) k v = (k1, v1) :: mapSet t k v := by
  simp [mapSet, h]

theorem mapGet_mapSet_self {α : Type} (m : List (String × α)) (k : String)
    (v : α) : mapGet (mapSet m k v) k = some v := by
  induction m with
  | nil => simp [mapSet, mapGet, List.find?]
  | cons kv t ih =>
      obtain ⟨k1, v1⟩ := kv
      by_cases h : k1 = k
      · subst h
        rw [mapSet_cons_self, mapGet_cons_self]
      · rw [mapSet_cons_ne _ _ _ _ h, mapGet_cons_ne _ _ _ h]
        exact ih

theorem mapGet_mapSet_ne {α : Type} (m : List (String × α)) {k s : String}
    (v : α) (h : k ≠ s) : mapGet (mapSet m k v) s = mapGet m s := by
  induction m with
  | nil =>
      have hb : (k == s) = false := beq_eq_false_iff_ne.mpr h
      simp [mapSet, mapGet, List.find?, hb]
  | cons kv t ih =>
      obtain ⟨k1, v1⟩ := kv
      by_cases h1 : k1 = k
      · subst h1
        rw [mapSet_cons_self, mapGet_cons_ne _ _ _ h, mapGet_cons_ne _ _ _ h]
      · rw [mapSet_cons_ne _ _ _ _ h1]
        by_cases h2 : k1 = s
        · subst h2
          rw [mapGet_cons_self, mapGet_cons_self]
        · rw [mapGet_cons_ne _ _ _ h2, mapGet_cons_ne _ _ _ h2]
          exact ih

theorem keys_mapSet {α : Type} (m : List (String × α)) (k a : String) (v : α) :
    a ∈ (mapSet m k v).map Prod.fst ↔ a = k ∨ a ∈ m.map Prod.fst := by
  induction m with
  | nil => simp [mapSet]
  | cons kv t ih =>
      obtain ⟨k1, v1⟩ := kv
      by_cases h : k1 = k
      · subst h
        rw [mapSet_cons_self]
        simp only [List.map_cons, List.mem_cons]
        tauto
      · rw [mapSet_cons_ne _ _ _ _ h]
        simp only [List.map_cons, List.mem_cons, ih]
        tauto

theorem mapSet_ne_nil {α : Type} (m : List (String × α)) (k : String) (v : α) :
    mapSet m k v ≠ [] := by
  cases m with
  | nil => simp [mapSet]
  | cons kv t =>
      obtain ⟨k1, v1⟩ := kv
      by_cases h : k1 = k
      · subst h; rw [mapSet_cons_self]; simp
      · rw [mapSet_cons_ne _ _ _ _ h]; simp

theorem values_mapSet {α : Type} {P : α → Prop} {m : List (String × α)}
    {k : String} {v : α} (hm : ∀ kv ∈ m, P kv.2) (hv : P v) :
    ∀ kv ∈ mapSet m k v, P kv.2 := by
  induction m with
  | nil =>
      intro kv hkv
      simp only [mapSet, List.mem_singleton] at hkv
      subst hkv; exact hv
  | cons kv0 t ih =>
      obtain ⟨k1, v1⟩ := kv0
      intro kv hkv
      by_cases h : k1 = k
      · subst h
        rw [mapSet_cons_self] at hkv
        rcases List.mem_cons.mp hkv with rfl | hmem
        · exact hv
        · exact hm _ (List.mem_cons_of_mem _ hmem)
      · rw [mapSet_cons_ne _ _ _ _ h] at hkv
        rcases List.mem_cons.mp hkv with rfl | hmem
        · exact hm _ (List.mem_cons_self _ _)
        · exact ih (fun kv h => hm _ (List.mem_cons_of_mem _ h)) _ hmem

theorem nodupKeys_mapSet {α : Type} (m : List (String × α)) (k : String)
    (v : α) (h : (m.map Prod.fst).Nodup) :
    ((mapSet m k v).map Prod.fst).Nodup := by
  induction m with
  | nil => simp [mapSet]
  | cons kv t ih =>
      obtain ⟨k1, v1⟩ := kv
      simp only [List.map_cons, List.nodup_cons] at h
      by_cases hk : k1 = k
      · subst hk
        rw [mapSet_cons_self]
        simp only [List.map_cons, List.nodup_cons]
        exact h
      · rw [mapSet_cons_ne _ _ _ _ hk]
        simp only [List.map_cons, List.nodup_cons]
        refine ⟨fun hc => ?_, ih h.2⟩
        rcases (keys_mapSet t k k1 v).mp hc with h1 | h1
        · exact hk h1
        · exact h.1 h1

theorem mem_iff_mapGet {α : Type} {m : List (String × α)}
    (h : (m.map Prod.fst).Nodup) (k : String) (v : α) :
    (k, v) ∈ m ↔ mapGet m k = some v := by
  induction m with
  | nil => simp [mapGet]
  | cons kv t ih =>
      obtain ⟨k1, v1⟩ := kv
      simp only [List.map_cons, List.nodup_cons] at h
      by_cases hk : k1 = k
      · subst hk
        rw [mapGet_cons_self]
        simp only [List.mem_cons, Prod.mk.injEq, Option.some.injEq]
        constructor
        · rintro (⟨-, rfl⟩ | hmem)
          · rfl
          · exact absurd (List.mem_map_of_mem Prod.fst hmem) h.1
        · rintro rfl
          exact Or.inl ⟨trivial, rfl⟩
      · rw [mapGet_cons_ne _ _ _ hk]
        simp only [List.mem_cons, Prod.mk.injEq]
        rw [← ih h.2]
        constructor
        · rintro (⟨h1, -⟩ | h1)
          · exact absurd h1 (fun hh => hk hh.symm)
          · exact h1
        · exact Or.inr

theorem inG_set (grouped : List (String × GroupedEntry)) (s0 : String)
    (e' : GroupedEntry) (P : String → Prop)
    (h : ∀ k, k ∈ e'.meta.map Prod.fst ↔ inG grouped s0 k ∨ P k) :
    ∀ s k, inG (mapSet grouped s0 e') s k ↔ inG grouped s k ∨ (s = s0 ∧ P k) := by
  intro s k
  by_cases hs : s = s0
  · subst hs
    unfold inG
    rw [mapGet_mapSet_self]
    constructor
    · rintro ⟨e, he, hk⟩
      obtain rfl : e' = e := by injection he
      rcases (h k).mp hk with h1 | h1
      · exact Or.inl h1
      · exact Or.inr ⟨rfl, h1⟩
    · rintro (⟨e, he, hk⟩ | ⟨-, hP⟩)
      · exact ⟨e', rfl, (h k).mpr (Or.inl ⟨e, he, hk⟩)⟩
      · exact ⟨e', rfl, (h k).mpr (Or.inr hP)⟩
  · unfold inG
    rw [mapGet_mapSet_ne _ _ fun hh => hs hh.symm]
    constructor
    · exact Or.inl
    · rintro (h1 | ⟨h1, -⟩)
      · exact h1
      · exact absurd h1 hs

theorem headNoTarget {sp : List Plugin} {k0 : String} {v0 : JSValue}
    (htgt : phase1Target sp k0 v0 = none) (rest : List (String × JSValue))
    (s k : String) :
    (∃ v pl, (k, v) ∈ ((k0, v0) :: rest) ∧ phase1Target sp k v = some pl ∧
        pl.slug = s) ↔
      (∃ v pl, (k, v) ∈ rest ∧ phase1Target sp k v = some pl ∧ pl.slug = s) := by
  constructor
  · rintro ⟨v, pl, hv, htg, hs⟩
    rcases List.mem_cons.mp hv with heq | hv'
    · injection heq with e1 e2
      subst e1; subst e2
      rw [htgt] at htg; cases htg
    · exact ⟨v, pl, hv', htg, hs⟩
  · rintro ⟨v, pl, hv, htg, hs⟩
    exact ⟨v, pl, List.mem_cons_of_mem _ hv, htg, hs⟩

theorem headTarget {sp : List Plugin} {k0 : String} {v0 : JSValue}
    {pl0 : Plugin} (htgt : phase1Target sp k0 v0 = some pl0)
    (rest : List (String × JSValue)) (s k : String) :
    (∃ v pl, (k, v) ∈ ((k0, v0) :: rest) ∧ phase1Target sp k v = some pl ∧
        pl.slug = s) ↔
      ((s = pl0.slug ∧ k = k0) ∨
        ∃ v pl, (k, v) ∈ rest ∧ phase1Target sp k v = some pl ∧ pl.slug = s) := by
  constructor
  · rintro ⟨v, pl, hv, htg, hs⟩
    rcases List.mem_cons.mp hv with heq | hv'
    · injection heq with e1 e2
      subst e1; subst e2
      rw [htgt] at htg
      obtain rfl : pl0 = pl := by injection htg
      exact Or.inl ⟨hs.symm, rfl⟩
    · exact Or.inr ⟨v, pl, hv', htg, hs⟩
  · rintro (⟨hs, rfl⟩ | ⟨v, pl, hv, htg, hs⟩)
    · exact ⟨v0, pl0, List.mem_cons_self _ _, htgt, hs.symm⟩
    · exact ⟨v, pl, List.mem_cons_of_mem _ hv, htg, hs⟩

theorem phase1Go_inG (sp : List Plugin) (rest : List (String × JSValue)) :
    ∀ grouped assigned s k,
      inG (phase1Go sp rest (grouped, assigned)).1 s k ↔
        inG grouped s k ∨
          ∃ v pl, (k, v) ∈ rest ∧ phase1Target sp k v = some pl ∧ pl.slug = s := by
  induction rest with
  | nil => intro grouped assigned s k; simp [phase1Go]
  | cons kv rest ih =>
      obtain ⟨k0, v0⟩ := kv
      intro grouped assigned s k
      by_cases h1 : isEmpty v0 = true
      · have hstep : phase1Go sp ((k0, v0) :: rest) (grouped, assigned) =
            phase1Go sp rest (grouped, assigned) := by
          simp only [phase1Go]; rw [if_pos h1]
        have htgt : phase1Target sp k0 v0 = none := by
          simp only [phase1Target]; rw [if_pos h1]
        rw [hstep, ih, headNoTarget htgt]
      · by_cases h2 : skipKeys.contains k0 = true
        · have hstep : phase1Go sp ((k0, v0) :: rest) (grouped, assigned) =
              phase1Go sp rest (grouped, assigned) := by
            simp only [phase1Go]; rw [if_neg h1, if_pos h2]
          have htgt : phase1Target sp k0 v0 = none := by
            simp only [phase1Target]; rw [if_neg h1, if_pos h2]
          rw [hstep, ih, headNoTarget htgt]
        · by_cases h3 : skipPrefixes.any (fun p => jsStartsWith k0 p) = true
          · have hstep : phase1Go sp ((k0, v0) :: rest) (grouped, assigned) =
                phase1Go sp rest (grouped, assigned) := by
              simp only [phase1Go]; rw [if_neg h1, if_neg h2, if_pos h3]
            have htgt : phase1Target sp k0 v0 = none := by
              simp only [phase1Target]; rw [if_neg h1, if_neg h2, if_pos h3]
            rw [hstep, ih, headNoTarget htgt]
          · cases hfind : sp.find? (matchesPlugin k0) with
            | none =>
                have hstep : phase1Go sp ((k0, v0) :: rest) (grouped, assigned) =
                    phase1Go sp rest (grouped, assigned) := by
                  simp only [phase1Go]
                  rw [if_neg h1, if_neg h2, if_neg h3, hfind]
                have htgt : phase1Target sp k0 v0 = none := by
                  simp only [phase1Target]
                  rw [if_neg h1, if_neg h2, if_neg h3, hfind]
                rw [hstep, ih, headNoTarget htgt]
            | some pl0 =>
                have htgt : phase1Target sp k0 v0 = some pl0 := by
                  simp only [phase1Target]
                  rw [if_neg h1, if_neg h2, if_neg h3, hfind]
                set g : GroupedEntry := (match mapGet grouped pl0.slug with
                  | some e => e
                  | none => ⟨pl0, []⟩) with hg
                have hstep : phase1Go sp ((k0, v0) :: rest) (grouped, assigned) =
                    phase1Go sp rest
                      (mapSet grouped pl0.slug ⟨g.plugin, mapSet g.meta k0 v0⟩,
                        assigned ++ [k0]) := by
                  simp only [phase1Go]
                  rw [if_neg h1, if_neg h2, if_neg h3, hfind]
                rw [hstep, ih, headTarget htgt]
                have hkeys : ∀ k, k ∈ (mapSet g.meta k0 v0).map Prod.fst ↔
                    inG grouped pl0.slug k ∨ k = k0 := by
                  intro k'
                  rw [keys_mapSet]
                  have : k' ∈ g.meta.map Prod.fst ↔ inG grouped pl0.slug k' := by
                    unfold inG
                    cases hget : mapGet grouped pl0.slug with
                    | some e =>
                        rw [hg]; rw [hget]
                        constructor
                        · intro hk; exact ⟨e, rfl, hk⟩
                        · rintro ⟨e', he', hk⟩
                          obtain rfl : e = e' := by injection he'
                          exact hk
                    | none =>
                        rw [hg]; rw [hget]
                        constructor
                        · intro hk; simp at hk
                        · rintro ⟨e', he', hk⟩; cases he'
                  rw [this]; tauto
                rw [inG_set grouped pl0.slug ⟨g.plugin, mapSet g.meta k0 v0⟩
                  (fun k => k = k0) hkeys s k]
                tauto

theorem headNoTargetA {sp : List Plugin} {k0 : String} {v0 : JSValue}
    (htgt : phase1Target sp k0 v0 = none) (rest : List (String × JSValue))
    (k : String) :
    (∃ v, (k, v) ∈ ((k0, v0) :: rest) ∧ (phase1Target sp k v).isSome = true) ↔
      (∃ v, (k, v) ∈ rest ∧ (phase1Target sp k v).isSome = true) := by
  constructor
  · rintro ⟨v, hv, htg⟩
    rcases List.mem_cons.mp hv with heq | hv'
    · injection heq with e1 e2
      subst e1; subst e2
      rw [htgt] at htg; cases htg
    · exact ⟨v, hv', htg⟩
  · rintro ⟨v, hv, htg⟩
    exact ⟨v, List.mem_cons_of_mem _ hv, htg⟩

theorem headTargetA {sp : List Plugin} {k0 : String} {v0 : JSValue}
    {pl0 : Plugin} (htgt : phase1Target sp k0 v0 = some pl0)
    (rest : List (String × JSValue)) (k : String) :
    (∃ v, (k, v) ∈ ((k0, v0) :: rest) ∧ (phase1Target sp k v).isSome = true) ↔
      (k = k0 ∨ ∃ v, (k, v) ∈ rest ∧ (phase1Target sp k v).isSome = true) := by
  constructor
  · rintro ⟨v, hv, htg⟩
    rcases List.mem_cons.mp hv with heq | hv'
    · injection heq with e1 e2
      subst e1; subst e2
      exact Or.inl rfl
    · exact Or.inr ⟨v, hv', htg⟩
  · rintro (rfl | ⟨v, hv, htg⟩)
    · exact ⟨v0, List.mem_cons_self _ _, by rw [htgt]; rfl⟩
    · exact ⟨v, List.mem_cons_of_mem _ hv, htg⟩

theorem phase1Go_assigned (sp : List Plugin) (rest : List (String × JSValue)) :
    ∀ grouped assigned k,
      k ∈ (phase1Go sp rest (grouped, assigned)).2 ↔
        k ∈ assigned ∨ ∃ v, (k, v) ∈ rest ∧ (phase1Target sp k v).isSome = true := by
  induction rest with
  | nil => intro grouped assigned k; simp [phase1Go]
  | cons kv rest ih =>
      obtain ⟨k0, v0⟩ := kv
      intro grouped assigned k
      by_cases h1 : isEmpty v0 = true
      · have hstep : phase1Go sp ((k0, v0) :: rest) (grouped, assigned) =
            phase1Go sp rest (grouped, assigned) := by
          simp only [phase1Go]; rw [if_pos h1]
        have htgt : phase1Target sp k0 v0 = none := by
          simp only [phase1Target]; rw [if_pos h1]
        rw [hstep, ih, headNoTargetA htgt]
      · by_cases h2 : skipKeys.contains k0 = true
        · have hstep : phase1Go sp ((k0, v0) :: rest) (grouped, assigned) =
              phase1Go sp rest (grouped, assigned) := by
            simp only [phase1Go]; rw [if_neg h1, if_pos h2]
          have htgt : phase1Target sp k0 v0 = none := by
            simp only [phase1Target]; rw [if_neg h1, if_pos h2]
          rw [hstep, ih, headNoTargetA htgt]
        · by_cases h3 : skipPrefixes.any (fun p => jsStartsWith k0 p) = true
          · have hstep : phase1Go sp ((k0, v0) :: rest) (grouped, assigned) =
                phase1Go sp rest (grouped, assigned) := by
              simp only [phase1Go]; rw [if_neg h1, if_neg h2, if_pos h3]
            have htgt : phase1Target sp k0 v0 = none := by
              simp only [phase1Target]; rw [if_neg h1, if_neg h2, if_pos h3]
            rw [hstep, ih, headNoTargetA htgt]
          · cases hfind : sp.find? (matchesPlugin k0) with
            | none =>
                have hstep : phase1Go sp ((k0, v0) :: rest) (grouped, assigned) =
                    phase1Go sp rest (grouped, assigned) := by
                  simp only [phase1Go]
                  rw [if_neg h1, if_neg h2, if_neg h3, hfind]
                have htgt : phase1Target sp k0 v0 = none := by
                  simp only [phase1Target]
                  rw [if_neg h1, if_neg h2, if_neg h3, hfind]
                rw [hstep, ih, headNoTargetA htgt]
            | some pl0 =>
                have htgt : phase1Target sp k0 v0 = some pl0 := by
                  simp only [phase1Target]
                  rw [if_neg h1, if_neg h2, if_neg h3, hfind]
                set g : GroupedEntry := (match mapGet grouped pl0.slug with
                  | some e => e
                  | none => ⟨pl0, []⟩) with hg
                have hstep : phase1Go sp ((k0, v0) :: rest) (grouped, assigned) =
                    phase1Go sp rest
                      (mapSet grouped pl0.slug ⟨g.plugin, mapSet g.meta k0 v0⟩,
                        assigned ++ [k0]) := by
                  simp only [phase1Go]
                  rw [if_neg h1, if_neg h2, if_neg h3, hfind]
                rw [hstep, ih, headTargetA htgt]
                simp only [List.mem_append, List.mem_singleton]
                tauto

theorem inU_set (unknown : List (String × List (String × JSValue)))
    (pre0 : String) (data' : List (String × JSValue)) (P : String → Prop)
    (h : ∀ k, k ∈ data'.map Prod.fst ↔ inU unknown pre0 k ∨ P k) :
    ∀ pre k, inU (mapSet unknown pre0 data') pre k ↔
      inU unknown pre k ∨ (pre = pre0 ∧ P k) := by
  intro pre k
  by_cases hs : pre = pre0
  · subst hs
    unfold inU
    rw [mapGet_mapSet_self]
    constructor
    · rintro ⟨d, hd, hk⟩
      obtain rfl : data' = d := by injection hd
      rcases (h k).mp hk with h1 | h1
      · exact Or.inl h1
      · exact Or.inr ⟨rfl, h1⟩
    · rintro (⟨d, hd, hk⟩ | ⟨-, hP⟩)
      · exact ⟨data', rfl, (h k).mpr (Or.inl ⟨d, hd, hk⟩)⟩
      · exact ⟨data', rfl, (h k).mpr (Or.inr hP)⟩
  · unfold inU
    rw [mapGet_mapSet_ne _ _ fun hh => hs hh.symm]
    constructor
    · exact Or.inl
    · rintro (h1 | ⟨h1, -⟩)
      · exact h1
      · exact absurd h1 hs

theorem headNoPreU {sp : List Plugin} {k0 : String} {v0 : JSValue}
    (hpre : phase2Pre sp k0 v0 = none) (rest : List (String × JSValue))
    (pre k : String) :
    (∃ v, (k, v) ∈ ((k0, v0) :: rest) ∧ phase2Pre sp k v = some pre) ↔
      (∃ v, (k, v) ∈ rest ∧ phase2Pre sp k v = some pre) := by
  constructor
  · rintro ⟨v, hv, hp⟩
    rcases List.mem_cons.mp hv with heq | hv'
    · injection heq with e1 e2
      subst e1; subst e2
      rw [hpre] at hp; cases hp
    · exact ⟨v, hv', hp⟩
  · rintro ⟨v, hv, hp⟩
    exact ⟨v, List.mem_cons_of_mem _ hv, hp⟩

theorem headNoPreA {sp : List Plugin} {k0 : String} {v0 : JSValue}
    (hpre : phase2Pre sp k0 v0 = none) (rest : List (String × JSValue))
    (k : String) :
    (∃ v, (k, v) ∈ ((k0, v0) :: rest) ∧ (phase2Pre sp k v).isSome = true) ↔
      (∃ v, (k, v) ∈ rest ∧ (phase2Pre sp k v).isSome = true) := by
  constructor
  · rintro ⟨v, hv, hp⟩
    rcases List.mem_cons.mp hv with heq | hv'
    · injection heq with e1 e2
      subst e1; subst e2
      rw [hpre] at hp; cases hp
    · exact ⟨v, hv', hp⟩
  · rintro ⟨v, hv, hp⟩
    exact ⟨v, List.mem_cons_of_mem _ hv, hp⟩

theorem headPreU {sp : List Plugin} {k0 : String} {v0 : JSValue} {pre0 : String}
    (hpre : phase2Pre sp k0 v0 = some pre0) (rest : List (String × JSValue))
    (pre k : String) :
    (∃ v, (k, v) ∈ ((k0, v0) :: rest) ∧ phase2Pre sp k v = some pre) ↔
      ((pre = pre0 ∧ k = k0) ∨
        ∃ v, (k, v) ∈ rest ∧ phase2Pre sp k v = some pre) := by
  constructor
  · rintro ⟨v, hv, hp⟩
    rcases List.mem_cons.mp hv with heq | hv'
    · injection heq with e1 e2
      subst e1; subst e2
      rw [hpre] at hp
      obtain rfl : pre0 = pre := by injection hp
      exact Or.inl ⟨rfl, rfl⟩
    · exact Or.inr ⟨v, hv', hp⟩
  · rintro (⟨rfl, rfl⟩ | ⟨v, hv, hp⟩)
    · exact ⟨v0, List.mem_cons_self _ _, hpre⟩
    · exact ⟨v, List.mem_cons_of_mem _ hv, hp⟩

theorem headPreA {sp : List Plugin} {k0 : String} {v0 : JSValue} {pre0 : String}
    (hpre : phase2Pre sp k0 v0 = some pre0) (rest : List (String × JSValue))
    (k : String) :
    (∃ v, (k, v) ∈ ((k0, v0) :: rest) ∧ (phase2Pre sp k v).isSome = true) ↔
      (k = k0 ∨ ∃ v, (k, v) ∈ rest ∧ (phase2Pre sp k v).isSome = true) := by
  constructor
  · rintro ⟨v, hv, hp⟩
    rcases List.mem_cons.mp hv with heq | hv'
    · injection heq with e1 e2
      subst e1; subst e2
      exact Or.inl rfl
    · exact Or.inr ⟨v, hv', hp⟩
  · rintro (rfl | ⟨v, hv, hp⟩)
    · exact ⟨v0, List.mem_cons_self _ _, by rw [hpre]; rfl⟩
    · exact ⟨v, List.mem_cons_of_mem _ hv, hp⟩

theorem containsAppendSingleton (l : List String) (a k : String) :
    (l ++ [a]).contains k = true ↔ l.contains k = true ∨ k = a := by
  rw [List.elem_iff, List.mem_append, List.mem_singleton, List.elem_iff]

theorem phase2Go_spec (sp : List Plugin) (rest : List (String × JSValue)) :
    ∀ unknown assigned,
      (rest.map Prod.fst).Nodup →
      (∀ k v, (k, v) ∈ rest →
        (assigned.contains k = true ↔ (phase1Target sp k v).isSome = true)) →
      (∀ pre k, inU (phase2Go rest (unknown, assigned)).1 pre k ↔
          inU unknown pre k ∨
            ∃ v, (k, v) ∈ rest ∧ phase2Pre sp k v = some pre) ∧
      (∀ k, (phase2Go rest (unknown, assigned)).2.contains k = true ↔
          assigned.contains k = true ∨
            ∃ v, (k, v) ∈ rest ∧ (phase2Pre sp k v).isSome = true) := by
  induction rest with
  | nil =>
      intro unknown assigned hnd hass
      constructor
      · intro pre k; simp [phase2Go]
      · intro k; simp [phase2Go]
  | cons kv rest ih =>
      obtain ⟨k0, v0⟩ := kv
      intro unknown assigned hnd hass
      have hndt : (rest.map Prod.fst).Nodup := by
        simp only [List.map_cons, List.nodup_cons] at hnd
        exact hnd.2
      have hk0nt : k0 ∉ rest.map Prod.fst := by
        simp only [List.map_cons, List.nodup_cons] at hnd
        exact hnd.1
      have hasst : ∀ k v, (k, v) ∈ rest →
          (assigned.contains k = true ↔ (phase1Target sp k v).isSome = true) :=
        fun k v hv => hass k v (List.mem_cons_of_mem _ hv)
      by_cases hc1 : (assigned.contains k0 || isEmpty v0) = true
      · have hstep : phase2Go ((k0, v0) :: rest) (unknown, assigned) =
            phase2Go rest (unknown, assigned) := by
          simp only [phase2Go]; rw [if_pos hc1]
        have hpre : phase2Pre sp k0 v0 = none := by
          simp only [phase2Pre]
          rcases (Bool.or_eq_true _ _).mp hc1 with hc | he
          · rw [if_pos (by
              rw [(hass k0 v0 (List.mem_cons_self _ _)).mp hc]; rfl)]
          · rw [if_pos (by rw [he]; simp)]
        obtain ⟨iha, ihb⟩ := ih unknown assigned hndt hasst
        constructor
        · intro pre k
          rw [hstep, iha pre k, headNoPreU hpre]
        · intro k
          rw [hstep, ihb k, headNoPreA hpre]
      · have hor : (assigned.contains k0 || isEmpty v0) = false := by
          cases h : (assigned.contains k0 || isEmpty v0) with
          | true => exact absurd h hc1
          | false => rfl
        obtain ⟨hc, he⟩ := Bool.or_eq_false_iff.mp hor
        have h1t : (phase1Target sp k0 v0).isSome = false := by
          cases hh : (phase1Target sp k0 v0).isSome with
          | false => rfl
          | true =>
              rw [(hass k0 v0 (List.mem_cons_self _ _)).mpr hh] at hc
              cases hc
        have hcond : ¬ (((phase1Target sp k0 v0).isSome || isEmpty v0) = true) := by
          rw [h1t, he]; simp
        by_cases h2 : skipKeys.contains k0 = true
        · have hstep : phase2Go ((k0, v0) :: rest) (unknown, assigned) =
              phase2Go rest (unknown, assigned) := by
            simp only [phase2Go]; rw [if_neg hc1, if_pos h2]
          have hpre : phase2Pre sp k0 v0 = none := by
            simp only [phase2Pre]; rw [if_neg hcond, if_pos h2]
          obtain ⟨iha, ihb⟩ := ih unknown assigned hndt hasst
          constructor
          · intro pre k
            rw [hstep, iha pre k, headNoPreU hpre]
          · intro k
            rw [hstep, ihb k, headNoPreA hpre]
        · by_cases h3 : (skipPrefixes.any fun p => jsStartsWith k0 p) = true
          · have hstep : phase2Go ((k0, v0) :: rest) (unknown, assigned) =
                phase2Go rest (unknown, assigned) := by
              simp only [phase2Go]; rw [if_neg hc1, if_neg h2, if_pos h3]
            have hpre : phase2Pre sp k0 v0 = none := by
              simp only [phase2Pre]; rw [if_neg hcond, if_neg h2, if_pos h3]
            obtain ⟨iha, ihb⟩ := ih unknown assigned hndt hasst
            constructor
            · intro pre k
              rw [hstep, iha pre k, headNoPreU hpre]
            · intro k
              rw [hstep, ihb k, headNoPreA hpre]
          · cases hext : extractPrefix k0 with
            | none =>
                have hstep : phase2Go ((k0, v0) :: rest) (unknown, assigned) =
                    phase2Go rest (unknown, assigned) := by
                  simp only [phase2Go]
                  rw [if_neg hc1, if_neg h2, if_neg h3, hext]
                have hpre : phase2Pre sp k0 v0 = none := by
                  simp only [phase2Pre]
                  rw [if_neg hcond, if_neg h2, if_neg h3, hext]
                obtain ⟨iha, ihb⟩ := ih unknown assigned hndt hasst
                constructor
                · intro pre k
                  rw [hstep, iha pre k, headNoPreU hpre]
                · intro k
                  rw [hstep, ihb k, headNoPreA hpre]
            | some pre0 =>
                by_cases hlen : 2 ≤ pre0.length
                · have hpre : phase2Pre sp k0 v0 = some pre0 := by
                    simp only [phase2Pre]
                    rw [if_neg hcond, if_neg h2, if_neg h3, hext]
                    exact if_pos hlen
                  set g : List (String × JSValue) :=
                    (mapGet unknown pre0).getD [] with hg
                  have hstep : phase2Go ((k0, v0) :: rest) (unknown, assigned) =
                      phase2Go rest (mapSet unknown pre0 (mapSet g k0 v0),
                        assigned ++ [k0]) := by
                    simp only [phase2Go]
                    rw [if_neg hc1, if_neg h2, if_neg h3, hext]
                    exact if_pos hlen
                  have hass2 : ∀ k v, (k, v) ∈ rest →
                      ((assigned ++ [k0]).contains k = true ↔
                        (phase1Target sp k v).isSome = true) := by
                    intro k v hv
                    rw [containsAppendSingleton]
                    have hkne : k ≠ k0 := by
                      intro hh
                      exact hk0nt (hh ▸ List.mem_map_of_mem Prod.fst hv)
                    rw [← hasst k v hv]
                    simp [hkne]
                  obtain ⟨iha, ihb⟩ :=
                    ih (mapSet unknown pre0 (mapSet g k0 v0))
                      (assigned ++ [k0]) hndt hass2
                  have hkeys : ∀ k, k ∈ (mapSet g k0 v0).map Prod.fst ↔
                      inU unknown pre0 k ∨ k = k0 := by
                    intro k'
                    rw [keys_mapSet]
                    have hgk : k' ∈ g.map Prod.fst ↔ inU unknown pre0 k' := by
                      unfold inU
                      cases hget : mapGet unknown pre0 with
                      | some d =>
                          rw [hg, hget]
                          constructor
                          · intro hk; exact ⟨d, rfl, hk⟩
                          · rintro ⟨d', hd', hk⟩
                            obtain rfl : d = d' := by injection hd'
                            exact hk
                      | none =>
                          rw [hg, hget]
                          constructor
                          · intro hk; simp at hk
                          · rintro ⟨d', hd', hk⟩; cases hd'
                    rw [hgk]; tauto
                  constructor
                  · intro pre k
                    rw [hstep, iha pre k, headPreU hpre,
                      inU_set unknown pre0 (mapSet g k0 v0) (fun k => k = k0)
                        hkeys pre k]
                    tauto
                  · intro k
                    rw [hstep, ihb k, headPreA hpre, containsAppendSingleton]
                    tauto
                · have hstep : phase2Go ((k0, v0) :: rest) (unknown, assigned) =
                      phase2Go rest (unknown, assigned) := by
                    simp only [phase2Go]
                    rw [if_neg hc1, if_neg h2, if_neg h3, hext]
                    exact if_neg hlen
                  have hpre : phase2Pre sp k0 v0 = none := by
                    simp only [phase2Pre]
                    rw [if_neg hcond, if_neg h2, if_neg h3, hext]
                    exact if_neg hlen
                  obtain ⟨iha, ihb⟩ := ih unknown assigned hndt hasst
                  constructor
                  · intro pre k
                    rw [hstep, iha pre k, headNoPreU hpre]
                  · intro k
                    rw [hstep, ihb k, headNoPreA hpre]

theorem phase2Go_values (rest : List (String × JSValue)) :
    ∀ unknown assigned,
      (∀ pre data, mapGet unknown pre = some data →
        data ≠ [] ∧ ∀ kv ∈ data, isEmpty kv.2 = false) →
      ∀ pre data, mapGet (phase2Go rest (unknown, assigned)).1 pre = some data →
        data ≠ [] ∧ ∀ kv ∈ data, isEmpty kv.2 = false := by
  induction rest with
  | nil =>
      intro unknown assigned hinv pre data hget
      exact hinv pre data hget
  | cons kv rest ih =>
      obtain ⟨k0, v0⟩ := kv
      intro unknown assigned hinv
      by_cases hc1 : (assigned.contains k0 || isEmpty v0) = true
      · rw [show phase2Go ((k0, v0) :: rest) (unknown, assigned) =
            phase2Go rest (unknown, assigned) by
          simp only [phase2Go]; rw [if_pos hc1]]
        exact ih unknown assigned hinv
      · have he : isEmpty v0 = false := by
          cases h : isEmpty v0 with
          | false => rfl
          | true => exact absurd (by rw [h]; simp) hc1
        by_cases h2 : skipKeys.contains k0 = true
        · rw [show phase2Go ((k0, v0) :: rest) (unknown, assigned) =
              phase2Go rest (unknown, assigned) by
            simp only [phase2Go]; rw [if_neg hc1, if_pos h2]]
          exact ih unknown assigned hinv
        · by_cases h3 : (skipPrefixes.any fun p => jsStartsWith k0 p) = true
          · rw [show phase2Go ((k0, v0) :: rest) (unknown, assigned) =
                phase2Go rest (unknown, assigned) by
              simp only [phase2Go]; rw [if_neg hc1, if_neg h2, if_pos h3]]
            exact ih unknown assigned hinv
          · cases hext : extractPrefix k0 with
            | none =>
                rw [show phase2Go ((k0, v0) :: rest) (unknown, assigned) =
                    phase2Go rest (unknown, assigned) by
                  simp only [phase2Go]
                  rw [if_neg hc1, if_neg h2, if_neg h3, hext]]
                exact ih unknown assigned hinv
            | some pre0 =>
                by_cases hlen : 2 ≤ pre0.length
                · rw [show phase2Go ((k0, v0) :: rest) (unknown, assigned) =
                      phase2Go rest
                        (mapSet unknown pre0
                          (mapSet ((mapGet unknown pre0).getD []) k0 v0),
                          assigned ++ [k0]) by
                    simp only [phase2Go]
                    rw [if_neg hc1, if_neg h2, if_neg h3, hext]
                    exact if_pos hlen]
                  apply ih
                  intro pre data hget
                  by_cases hp : pre = pre0
                  · subst hp
                    rw [mapGet_mapSet_self] at hget
                    obtain rfl : mapSet ((mapGet unknown pre).getD []) k0 v0 =
                        data := by injection hget
                    refine ⟨mapSet_ne_nil _ _ _, ?_⟩
                    apply values_mapSet (P := fun v => isEmpty v = false)
                    · intro kv hkv
                      cases hg : mapGet unknown pre with
                      | some d =>
                          rw [hg] at hkv
                          exact (hinv pre d hg).2 kv hkv
                      | none => rw [hg] at hkv; simp at hkv
                    · exact he
                  · rw [mapGet_mapSet_ne _ _ fun hh => hp hh.symm] at hget
                    exact hinv pre data hget
                · rw [show phase2Go ((k0, v0) :: rest) (unknown, assigned) =
                      phase2Go rest (unknown, assigned) by
                    simp only [phase2Go]
                    rw [if_neg hc1, if_neg h2, if_neg h3, hext]
                    exact if_neg hlen]
                  exact ih unknown assigned hinv

theorem phase2Go_nodupKeys (rest : List (String × JSValue)) :
    ∀ unknown assigned,
      ((unknown.map Prod.fst).Nodup) →
      (((phase2Go rest (unknown, assigned)).1.map Prod.fst).Nodup) := by
  induction rest with
  | nil => intro unknown assigned h; exact h
  | cons kv rest ih =>
      obtain ⟨k0, v0⟩ := kv
      intro unknown assigned h
      by_cases hc1 : (assigned.contains k0 || isEmpty v0) = true
      · rw [show phase2Go ((k0, v0) :: rest) (unknown, assigned) =
            phase2Go rest (unknown, assigned) by
          simp only [phase2Go]; rw [if_pos hc1]]
        exact ih unknown assigned h
      · by_cases h2 : skipKeys.contains k0 = true
        · rw [show phase2Go ((k0, v0) :: rest) (unknown, assigned) =
              phase2Go rest (unknown, assigned) by
            simp only [phase2Go]; rw [if_neg hc1, if_pos h2]]
          exact ih unknown assigned h
        · by_cases h3 : (skipPrefixes.any fun p => jsStartsWith k0 p) = true
          · rw [show phase2Go ((k0, v0) :: rest) (unknown, assigned) =
                phase2Go rest (unknown, assigned) by
              simp only [phase2Go]; rw [if_neg hc1, if_neg h2, if_pos h3]]
            exact ih unknown assigned h
          · cases hext : extractPrefix k0 with
            | none =>
                rw [show phase2Go ((k0, v0) :: rest) (unknown, assigned) =
                    phase2Go rest (unknown, assigned) by
                  simp only [phase2Go]
                  rw [if_neg hc1, if_neg h2, if_neg h3, hext]]
                exact ih unknown assigned h
            | some pre0 =>
                by_cases hlen : 2 ≤ pre0.length
                · rw [show phase2Go ((k0, v0) :: rest) (unknown, assigned) =
                      phase2Go rest
                        (mapSet unknown pre0
                          (mapSet ((mapGet unknown pre0).getD []) k0 v0),
                          assigned ++ [k0]) by
                    simp only [phase2Go]
                    rw [if_neg hc1, if_neg h2, if_neg h3, hext]
                    exact if_pos hlen]
                  exact ih _ _ (nodupKeys_mapSet _ _ _ h)
                · rw [show phase2Go ((k0, v0) :: rest) (unknown, assigned) =
                      phase2Go rest (unknown, assigned) by
                    simp only [phase2Go]
                    rw [if_neg hc1, if_neg h2, if_neg h3, hext]
                    exact if_neg hlen]
                  exact ih unknown assigned h

theorem keys_objAssign (src : List (String × JSValue)) :
    ∀ t k, k ∈ (objAssign t src).map Prod.fst ↔
      k ∈ t.map Prod.fst ∨ k ∈ src.map Prod.fst := by
  induction src with
  | nil => intro t k; simp [objAssign]
  | cons kv tl ih =>
      obtain ⟨k1, v1⟩ := kv
      intro t k
      have : objAssign t ((k1, v1) :: tl) = objAssign (mapSet t k1 v1) tl := rfl
      rw [this, ih, keys_mapSet]
      simp only [List.map_cons, List.mem_cons]
      tauto

theorem meaningful_of_nonempty {data : List (String × JSValue)}
    (hne : data ≠ []) (hv : ∀ kv ∈ data, isEmpty kv.2 = false) :
    hasMeaningfulContent data = true := by
  cases data with
  | nil => exact absurd rfl hne
  | cons kv tl =>
      simp only [hasMeaningfulContent, List.any_cons, Bool.or_eq_true]
      exact Or.inl (by rw [hv kv (List.mem_cons_self _ _)]; rfl)

theorem phase3Go_inG (unknownList : List (String × List (String × JSValue))) :
    ∀ grouped,
      (∀ pre data, (pre, data) ∈ unknownList →
        1 ≤ data.length ∧ hasMeaningfulContent data = true) →
      ∀ s k, inG (phase3Go unknownList grouped) s k ↔
        inG grouped s k ∨
          ∃ pre data, (pre, data) ∈ unknownList ∧ slugOfPre pre = s ∧
            k ∈ data.map Prod.fst := by
  induction unknownList with
  | nil => intro grouped hcond s k; simp [phase3Go]
  | cons pd rest ih =>
      obtain ⟨pre0, data0⟩ := pd
      intro grouped hcond s k
      have hc0 : 1 ≤ data0.length ∧ hasMeaningfulContent data0 = true :=
        hcond pre0 data0 (List.mem_cons_self _ _)
      have hcondt : ∀ pre data, (pre, data) ∈ rest →
          1 ≤ data.length ∧ hasMeaningfulContent data = true :=
        fun pre data hm => hcond pre data (List.mem_cons_of_mem _ hm)
      have hhead : ∀ grouped',
          (∀ s k, inG grouped' s k ↔
            inG grouped s k ∨ (s = slugOfPre pre0 ∧ k ∈ data0.map Prod.fst)) →
          (inG (phase3Go rest grouped') s k ↔
            inG grouped s k ∨
              ∃ pre data, (pre, data) ∈ ((pre0, data0) :: rest) ∧
                slugOfPre pre = s ∧ k ∈ data.map Prod.fst) := by
        intro grouped' hg
        rw [ih grouped' hcondt s k, hg s k]
        constructor
        · rintro ((h | ⟨hs, hk⟩) | ⟨pre, data, hm, hs, hk⟩)
          · exact Or.inl h
          · exact Or.inr ⟨pre0, data0, List.mem_cons_self _ _, hs.symm, hk⟩
          · exact Or.inr ⟨pre, data, List.mem_cons_of_mem _ hm, hs, hk⟩
        · rintro (h | ⟨pre, data, hm, hs, hk⟩)
          · exact Or.inl (Or.inl h)
          · rcases List.mem_cons.mp hm with heq | hm'
            · injection heq with e1 e2
              subst e1; subst e2
              exact Or.inl (Or.inr ⟨hs.symm, hk⟩)
            · exact Or.inr ⟨pre, data, hm', hs, hk⟩
      cases hget : mapGet grouped (slugOfPre pre0) with
      | none =>
          rw [show phase3Go ((pre0, data0) :: rest) grouped =
              phase3Go rest (mapSet grouped (slugOfPre pre0)
                ⟨{ slug := slugOfPre pre0, name := slugOfPre pre0,
                   prefixes := [], autoDetected := true }, data0⟩) by
            simp only [phase3Go]
            rw [if_pos hc0, hget]]
          apply hhead
          intro s' k'
          apply inG_set
          intro k''
          constructor
          · intro hk; exact Or.inr hk
          · rintro (⟨e, he, -⟩ | hk)
            · rw [hget] at he; cases he
            · exact hk
      | some e =>
          rw [show phase3Go ((pre0, data0) :: rest) grouped =
              phase3Go rest (mapSet grouped (slugOfPre pre0)
                ⟨e.plugin, objAssign e.meta data0⟩) by
            simp only [phase3Go]
            rw [if_pos hc0, hget]]
          apply hhead
          intro s' k'
          apply inG_set
          intro k''
          rw [keys_objAssign]
          constructor
          · rintro (hk | hk)
            · exact Or.inl ⟨e, hget, hk⟩
            · exact Or.inr hk
          · rintro (⟨e', he', hk⟩ | hk)
            · obtain rfl : e = e' := by rw [hget] at he'; injection he'
              exact Or.inl hk
            · exact Or.inr hk

/-- The test a key must pass to enter the remaining bucket, as nested in
the last loop of `groupMetaByPlugin`. -/
def remainCond (assigned : List String) (k : String) (v : JSValue) : Prop :=
  ((!assigned.contains k) = true ∧ (!isEmpty v) = true) ∧
    ((!skipKeys.contains k) = true ∧
      (!(skipPrefixes.any fun p => jsStartsWith k p)) = true) ∧
    (k.data.contains '_' = true ∧ (!jsStartsWith k "_") = true)

theorem remainingGo_mem (assigned : List String)
    (rest : List (String × JSValue)) :
    ∀ acc k, k ∈ (remainingGo assigned rest acc).map Prod.fst ↔
      k ∈ acc.map Prod.fst ∨ ∃ v, (k, v) ∈ rest ∧ remainCond assigned k v := by
  induction rest with
  | nil => intro acc k; simp [remainingGo]
  | cons kv rest ih =>
      obtain ⟨k0, v0⟩ := kv
      intro acc k
      have hHeadNo : ∀ (hno : ¬ remainCond assigned k0 v0),
          ((∃ v, (k, v) ∈ ((k0, v0) :: rest) ∧ remainCond assigned k v) ↔
            ∃ v, (k, v) ∈ rest ∧ remainCond assigned k v) := by
        intro hno
        constructor
        · rintro ⟨v, hv, hcond⟩
          rcases List.mem_cons.mp hv with heq | hv'
          · injection heq with e1 e2
            subst e1; subst e2
            exact absurd hcond hno
          · exact ⟨v, hv', hcond⟩
        · rintro ⟨v, hv, hcond⟩
          exact ⟨v, List.mem_cons_of_mem _ hv, hcond⟩
      by_cases c1 : (!assigned.contains k0) = true ∧ (!isEmpty v0) = true
      · by_cases c2 : (!skipKeys.contains k0) = true ∧
            (!(skipPrefixes.any fun p => jsStartsWith k0 p)) = true
        · by_cases c3 : k0.data.contains '_' = true ∧ (!jsStartsWith k0 "_") = true
          · have hstep : remainingGo assigned ((k0, v0) :: rest) acc =
                remainingGo assigned rest (mapSet acc k0 v0) := by
              simp only [remainingGo]
              rw [if_pos c1, if_pos c2, if_pos c3]
            have hcond0 : remainCond assigned k0 v0 := ⟨c1, c2, c3⟩
            rw [hstep, ih, keys_mapSet]
            constructor
            · rintro ((rfl | hacc) | ⟨v, hv, hcond⟩)
              · exact Or.inr ⟨v0, List.mem_cons_self _ _, hcond0⟩
              · exact Or.inl hacc
              · exact Or.inr ⟨v, List.mem_cons_of_mem _ hv, hcond⟩
            · rintro (hacc | ⟨v, hv, hcond⟩)
              · exact Or.inl (Or.inr hacc)
              · rcases List.mem_cons.mp hv with heq | hv'
                · injection heq with e1 e2
                  subst e1; subst e2
                  exact Or.inl (Or.inl rfl)
                · exact Or.inr ⟨v, hv', hcond⟩
          · have hstep : remainingGo assigned ((k0, v0) :: rest) acc =
                remainingGo assigned rest acc := by
              simp only [remainingGo]
              rw [if_pos c1, if_pos c2, if_neg c3]
            rw [hstep, ih, hHeadNo (fun hc => c3 hc.2.2)]
        · have hstep : remainingGo assigned ((k0, v0) :: rest) acc =
              remainingGo assigned rest acc := by
            simp only [remainingGo]
            rw [if_pos c1, if_neg c2]
          rw [hstep, ih, hHeadNo (fun hc => c2 hc.2.1)]
      · have hstep : remainingGo assigned ((k0, v0) :: rest) acc =
            remainingGo assigned rest acc := by
          simp only [remainingGo]
          rw [if_neg c1]
        rw [hstep, ih, hHeadNo (fun hc => c1 hc.1)]

theorem remainingGo_values (assigned : List String)
    (rest : List (String × JSValue)) :
    ∀ acc, (∀ kv ∈ acc, isEmpty kv.2 = false) →
      ∀ kv ∈ remainingGo assigned rest acc, isEmpty kv.2 = false := by
  induction rest with
  | nil => intro acc hacc; exact hacc
  | cons kv0 rest ih =>
      obtain ⟨k0, v0⟩ := kv0
      intro acc hacc
      by_cases c1 : (!assigned.contains k0) = true ∧ (!isEmpty v0) = true
      · by_cases c2 : (!skipKeys.contains k0) = true ∧
            (!(skipPrefixes.any fun p => jsStartsWith k0 p)) = true
        · by_cases c3 : k0.data.contains '_' = true ∧ (!jsStartsWith k0 "_") = true
          · rw [show remainingGo assigned ((k0, v0) :: rest) acc =
                remainingGo assigned rest (mapSet acc k0 v0) by
              simp only [remainingGo]
              rw [if_pos c1, if_pos c2, if_pos c3]]
            apply ih
            apply values_mapSet (P := fun v => isEmpty v = false) hacc
            have := c1.2
            simpa using this
          · rw [show remainingGo assigned ((k0, v0) :: rest) acc =
                remainingGo assigned rest acc by
              simp only [remainingGo]
              rw [if_pos c1, if_pos c2, if_neg c3]]
            exact ih acc hacc
        · rw [show remainingGo assigned ((k0, v0) :: rest) acc =
              remainingGo assigned rest acc by
            simp only [remainingGo]
            rw [if_pos c1, if_neg c2]]
          exact ih acc hacc
      · rw [show remainingGo assigned ((k0, v0) :: rest) acc =
            remainingGo assigned rest acc by
          simp only [remainingGo]
          rw [if_neg c1]]
        exact ih acc hacc

theorem inG_nil (s k : String) : ¬ inG [] s k := by
  rintro ⟨e, he, -⟩
  simp [mapGet] at he

theorem nodupVal {α : Type} {m : List (String × α)}
    (hnd : (m.map Prod.fst).Nodup) {k : String} {a b : α}
    (ha : (k, a) ∈ m) (hb : (k, b) ∈ m) : a = b := by
  rw [mem_iff_mapGet hnd] at ha hb
  rw [ha] at hb
  injection hb

/-- C2: with keys unique in the bag, every key of the bag lands in exactly
one of the three buckets, as computed by the per-key classification: it is
in the group of slug `s` iff the classification says `grouped s` (hence in
at most one named group), it is in the returned remainder iff the
classification says `remaining`, a key in a group is never also in the
remainder, and a key with a reserved internal prefix is classified
`dropped` — so it appears in no group and not in the remainder. -/
theorem c2_classifier_exclusivity
    (meta : List (String × JSValue)) (plugins : List Plugin)
    (hnd : (meta.map Prod.fst).Nodup) (k : String) (v : JSValue)
    (hmem : (k, v) ∈ meta) :
    (∀ s, inG (groupMetaByPlugin meta plugins).grouped s k ↔
        classifyKey (sortPlugins plugins) k v = .grouped s) ∧
    (inRem (groupMetaByPlugin meta plugins) k ↔
        classifyKey (sortPlugins plugins) k v = .remaining) ∧
    (∀ s s', inG (groupMetaByPlugin meta plugins).grouped s k →
        inG (groupMetaByPlugin meta plugins).grouped s' k → s = s') ∧
    (∀ s, inG (groupMetaByPlugin meta plugins).grouped s k →
        ¬ inRem (groupMetaByPlugin meta plugins) k) ∧
    ((skipPrefixes.any fun p => jsStartsWith k p) = true →
        classifyKey (sortPlugins plugins) k v = .dropped) := by
  set sp := sortPlugins plugins with hsp
  have hvuniq : ∀ v', (k, v') ∈ meta → v' = v := fun v' hv' =>
    nodupVal hnd hv' hmem
  have hg_eq : (groupMetaByPlugin meta plugins).grouped =
      phase3Go (phase2Go meta ([], (phase1Go sp meta ([], [])).2)).1
        (phase1Go sp meta ([], [])).1 := rfl
  have hr_eq : (groupMetaByPlugin meta plugins).remaining =
      (if hasMeaningfulContent
          (remainingGo (phase2Go meta ([], (phase1Go sp meta ([], [])).2)).2
            meta []) = true then
        some (remainingGo
          (phase2Go meta ([], (phase1Go sp meta ([], [])).2)).2 meta [])
      else none) := rfl
  have hass : ∀ k' v', (k', v') ∈ meta →
      ((phase1Go sp meta ([], [])).2.contains k' = true ↔
        (phase1Target sp k' v').isSome = true) := by
    intro k' v' hm
    rw [List.elem_iff, phase1Go_assigned sp meta [] [] k']
    simp only [List.not_mem_nil, false_or]
    constructor
    · rintro ⟨v'', hv'', hsome⟩
      have hvv : v'' = v' := nodupVal hnd hv'' hm
      rw [← hvv]; exact hsome
    · intro hsome; exact ⟨v', hm, hsome⟩
  obtain ⟨iha, ihb⟩ :=
    phase2Go_spec sp meta [] (phase1Go sp meta ([], [])).2 hnd
      (fun k' v' hm => hass k' v' hm)
  have hvals2 := phase2Go_values meta []
    (phase1Go sp meta ([], [])).2
    (by intro pre data h; simp [mapGet] at h)
  have hnd2 := phase2Go_nodupKeys meta []
    (phase1Go sp meta ([], [])).2 (by simp)
  have hF7 : ∀ pre data,
      (pre, data) ∈ (phase2Go meta ([], (phase1Go sp meta ([], [])).2)).1 →
      1 ≤ data.length ∧ hasMeaningfulContent data = true := by
    intro pre data hm
    have hget := (mem_iff_mapGet hnd2 pre data).mp hm
    obtain ⟨hne, hvalsd⟩ := hvals2 pre data hget
    exact ⟨List.length_pos.mpr hne, meaningful_of_nonempty hne hvalsd⟩
  have hgrk : ∀ s, inG (groupMetaByPlugin meta plugins).grouped s k ↔
      ((∃ pl, phase1Target sp k v = some pl ∧ pl.slug = s) ∨
        (∃ pre, phase2Pre sp k v = some pre ∧ slugOfPre pre = s)) := by
    intro s
    rw [hg_eq, phase3Go_inG _ _ hF7 s k, phase1Go_inG sp meta [] [] s k]
    constructor
    · rintro ((h0 | ⟨v', pl, hv', htg, hs⟩) | ⟨pre, data, hm, hs, hk⟩)
      · exact absurd h0 (inG_nil s k)
      · obtain rfl : v' = v := hvuniq v' hv'
        exact Or.inl ⟨pl, htg, hs⟩
      · have hget := (mem_iff_mapGet hnd2 pre data).mp hm
        have hiU : inU (phase2Go meta
            ([], (phase1Go sp meta ([], [])).2)).1 pre k := ⟨data, hget, hk⟩
        rcases (iha pre k).mp hiU with ⟨d, hd, -⟩ | ⟨v', hv', hp⟩
        · simp [mapGet] at hd
        · obtain rfl : v' = v := hvuniq v' hv'
          exact Or.inr ⟨pre, hp, hs⟩
    · rintro (⟨pl, htg, hs⟩ | ⟨pre, hp, hs⟩)
      · exact Or.inl (Or.inr ⟨v, pl, hmem, htg, hs⟩)
      · have hiU : inU (phase2Go meta
            ([], (phase1Go sp meta ([], [])).2)).1 pre k :=
          (iha pre k).mpr (Or.inr ⟨v, hmem, hp⟩)
        obtain ⟨data, hget, hk⟩ := hiU
        exact Or.inr ⟨pre, data, (mem_iff_mapGet hnd2 pre data).mpr hget, hs, hk⟩
  have hclass_g : ∀ s, classifyKey sp k v = .grouped s ↔
      ((∃ pl, phase1Target sp k v = some pl ∧ pl.slug = s) ∨
        (∃ pre, phase2Pre sp k v = some pre ∧ slugOfPre pre = s)) := by
    intro s
    cases h1 : phase1Target sp k v with
    | some pl =>
        have h2 : phase2Pre sp k v = none := by
          simp only [phase2Pre]
          rw [if_pos (by rw [h1]; rfl)]
        simp only [classifyKey, h1]
        constructor
        · intro he
          injection he with hs
          exact Or.inl ⟨pl, rfl, hs⟩
        · rintro (⟨pl', hpl', hs⟩ | ⟨pre, hpre, hs⟩)
          · obtain rfl : pl = pl' := by injection hpl'
            rw [hs]
          · rw [h2] at hpre; cases hpre
    | none =>
        cases h2 : phase2Pre sp k v with
        | some pre =>
            simp only [classifyKey, h1, h2]
            constructor
            · intro he
              injection he with hs
              exact Or.inr ⟨pre, rfl, hs⟩
            · rintro (⟨pl', hpl', -⟩ | ⟨pre', hpre', hs⟩)
              · cases hpl'
              · obtain rfl : pre = pre' := by injection hpre'
                rw [hs]
        | none =>
            simp only [classifyKey, h1, h2]
            constructor
            · intro he
              split at he <;> simp at he
            · rintro (⟨pl', hpl', -⟩ | ⟨pre', hpre', -⟩)
              · cases hpl'
              · cases hpre'
  have hcontains : (phase2Go meta
      ([], (phase1Go sp meta ([], [])).2)).2.contains k = true ↔
      ((phase1Target sp k v).isSome = true ∨ (phase2Pre sp k v).isSome = true) := by
    rw [ihb k, hass k v hmem]
    constructor
    · rintro (h | ⟨v', hv', hp⟩)
      · exact Or.inl h
      · obtain rfl : v' = v := hvuniq v' hv'
        exact Or.inr hp
    · rintro (h | h)
      · exact Or.inl h
      · exact Or.inr ⟨v, hmem, h⟩
  have hremk : inRem (groupMetaByPlugin meta plugins) k ↔
      remainCond (phase2Go meta ([], (phase1Go sp meta ([], [])).2)).2 k v := by
    have hmem_rem : k ∈ (remainingGo
        (phase2Go meta ([], (phase1Go sp meta ([], [])).2)).2 meta
          []).map Prod.fst ↔
        remainCond (phase2Go meta ([], (phase1Go sp meta ([], [])).2)).2 k v := by
      rw [remainingGo_mem _ meta [] k]
      simp only [List.map_nil, List.not_mem_nil, false_or]
      constructor
      · rintro ⟨v', hv', hcond⟩
        obtain rfl : v' = v := hvuniq v' hv'
        exact hcond
      · intro hcond; exact ⟨v, hmem, hcond⟩
    unfold inRem
    rw [hr_eq]
    constructor
    · rintro ⟨rem', heq, hk⟩
      split at heq
      · obtain rfl : remainingGo
            (phase2Go meta ([], (phase1Go sp meta ([], [])).2)).2 meta [] =
            rem' := by injection heq
        exact hmem_rem.mp hk
      · cases heq
    · intro hcond
      have hk := hmem_rem.mpr hcond
      have hne : remainingGo
          (phase2Go meta ([], (phase1Go sp meta ([], [])).2)).2 meta [] ≠ [] := by
        intro h0
        rw [h0] at hk
        simp at hk
      have hvalsr := remainingGo_values
        (phase2Go meta ([], (phase1Go sp meta ([], [])).2)).2 meta []
        (by intro kv h; simp at h)
      refine ⟨_, ?_, hk⟩
      rw [if_pos (meaningful_of_nonempty hne hvalsr)]
  have hclass_r : classifyKey sp k v = .remaining ↔
      remainCond (phase2Go meta ([], (phase1Go sp meta ([], [])).2)).2 k v := by
    cases h1 : phase1Target sp k v with
    | some pl =>
        simp only [classifyKey, h1]
        constructor
        · intro he; cases he
        · rintro ⟨⟨hnc, -⟩, -, -⟩
          have : (phase2Go meta
              ([], (phase1Go sp meta ([], [])).2)).2.contains k = true :=
            hcontains.mpr (Or.inl (by rw [h1]; rfl))
          rw [this] at hnc
          cases hnc
    | none =>
        cases h2 : phase2Pre sp k v with
        | some pre =>
            simp only [classifyKey, h1, h2]
            constructor
            · intro he; cases he
            · rintro ⟨⟨hnc, -⟩, -, -⟩
              have : (phase2Go meta
                  ([], (phase1Go sp meta ([], [])).2)).2.contains k = true :=
                hcontains.mpr (Or.inr (by rw [h2]; rfl))
              rw [this] at hnc
              cases hnc
        | none =>
            have hncontains : (phase2Go meta
                ([], (phase1Go sp meta ([], [])).2)).2.contains k = false := by
              cases hc : (phase2Go meta
                  ([], (phase1Go sp meta ([], [])).2)).2.contains k with
              | false => rfl
              | true =>
                  rcases hcontains.mp hc with h | h
                  · rw [h1] at h; cases h
                  · rw [h2] at h; cases h
            simp only [classifyKey, h1, h2]
            constructor
            · intro he
              split at he
              · rename_i hcond
                simp only [Bool.and_eq_true, Bool.not_eq_true',
                  looksLikePluginMeta] at hcond
                obtain ⟨⟨⟨hne, hnsk⟩, hnsp⟩, hct, hnst⟩ := hcond
                refine ⟨⟨?_, ?_⟩, ⟨?_, ?_⟩, ⟨hct, ?_⟩⟩
                · rw [hncontains]; rfl
                · rw [hne]; rfl
                · rw [hnsk]; rfl
                · rw [hnsp]; rfl
                · rw [hnst]; rfl
              · cases he
            · rintro ⟨⟨-, hne⟩, ⟨hnsk, hnsp⟩, hct, hnst⟩
              rw [if_pos ?_]
              simp only [Bool.and_eq_true, looksLikePluginMeta]
              refine ⟨⟨⟨hne, hnsk⟩, hnsp⟩, hct, hnst⟩
  refine ⟨fun s => (hgrk s).trans (hclass_g s).symm,
    hremk.trans hclass_r.symm, ?_, ?_, ?_⟩
  · intro s s' hg hg'
    have h1 := (hclass_g s).mpr ((hgrk s).mp hg)
    have h2 := (hclass_g s').mpr ((hgrk s').mp hg')
    rw [h1] at h2
    injection h2
  · intro s hg hr
    have h1 := (hclass_g s).mpr ((hgrk s).mp hg)
    have h2 := hclass_r.mpr (hremk.mp hr)
    rw [h1] at h2
    cases h2
  · intro hskip
    have h1 : phase1Target sp k v = none := by
      simp only [phase1Target]
      by_cases he : isEmpty v = true
      · rw [if_pos he]
      · rw [if_neg he]
        by_cases hk2 : skipKeys.contains k = true
        · rw [if_pos hk2]
        · rw [if_neg hk2, if_pos hskip]
    have h2 : phase2Pre sp k v = none := by
      simp only [phase2Pre]
      by_cases he : isEmpty v = true
      · rw [if_pos (by rw [he]; simp)]
      · rw [if_neg (by rw [h1]; simp [he])]
        by_cases hk2 : skipKeys.contains k = true
        · rw [if_pos hk2]
        · rw [if_neg hk2, if_pos hskip]
    simp only [classifyKey, h1, h2]
    rw [if_neg ?_]
    simp only [Bool.and_eq_true]
    rintro ⟨⟨⟨-, -⟩, hnsp⟩, -⟩
    rw [hskip] at hnsp
    cases hnsp

/-- C2 witness: a concrete bag and descriptor list exercising the theorem;
the key a_b (unassigned, plugin-looking) sits in the remainder exactly as
classified. -/
theorem c2_witness :
    inRem (groupMetaByPlugin [("a_b", JSValue.str "x")] []) "a_b" ↔
      classifyKey (sortPlugins []) "a_b" (JSValue.str "x") = .remaining :=
  (c2_classifier_exclusivity [("a_b", JSValue.str "x")] [] (by decide)
    "a_b" (JSValue.str "x") (List.mem_singleton.mpr rfl)).2.1

/-! ## Media URL rewriting (lib/media-handler.js) -/

/-- JS `GetSubstitution` for a replacement template with no capture
groups: `$$` inserts a dollar, `$&` the matched text, a backtick dollar
escape the part before the match, an apostrophe dollar escape the part
after it; any other dollar sequence (such as `$1` with no groups) stays
literal. -/
def expandSub : List Char → List Char → List Char → List Char → List Char
  | [], _, _, _ => []
  | ['$'], _, _, _ => ['$']
  | '$' :: c2 :: t, m, b, a =>
      if c2 = '$' then '$' :: expandSub t m b a
      else if c2 = '&' then m ++ expandSub t m b a
      else if c2 = Char.ofNat 96 then b ++ expandSub t m b a
      else if c2 = Char.ofNat 39 then a ++ expandSub t m b a
      else '$' :: c2 :: expandSub t m b a
  | c :: rest, m, b, a => c :: expandSub rest m b a

theorem isPrefixOf_iff_append (l1 : List Char) :
    ∀ l2, l1.isPrefixOf l2 = true ↔ ∃ t, l2 = l1 ++ t := by
  induction l1 with
  | nil => intro l2; simp [List.isPrefixOf]
  | cons c t ih =>
      intro l2
      cases l2 with
      | nil => simp [List.isPrefixOf]
      | cons c2 t2 =>
          simp only [List.isPrefixOf, Bool.and_eq_true, beq_iff_eq, ih t2,
            List.cons_append, List.cons.injEq]
          constructor
          · rintro ⟨rfl, t3, rfl⟩
            exact ⟨t3, rfl, rfl⟩
          · rintro ⟨t3, rfl, rfl⟩
            exact ⟨rfl, t3, rfl⟩

theorem isPrefixOf_length_le {l1 l2 : List Char}
    (h : l1.isPrefixOf l2 = true) : l1.length ≤ l2.length := by
  obtain ⟨t, rfl⟩ := (isPrefixOf_iff_append l1 l2).mp h
  simp

/-- A head matcher: given the rest of the subject, the text matched at
this position, if any. -/
def litMatcher (pat : List Char) (s : List Char) : Option (List Char) :=
  if pat.isPrefixOf s = true ∧ pat ≠ [] then some pat else none

/-- The head matcher of the `restoreMediaUrls` regex: an optional dot
(greedy, so taken when the rest still matches), then `/media/`, then the
escaped — hence literal — filename. -/
def mediaPat (fn : List Char) : List Char := "/media/".data ++ fn

def restoreMatcher (fn : List Char) (s : List Char) : Option (List Char) :=
  if ('.' :: mediaPat fn).isPrefixOf s = true then some ('.' :: mediaPat fn)
  else if (mediaPat fn).isPrefixOf s = true then some (mediaPat fn)
  else none

/-- The global-regex scan loop of `String.prototype.replace`: walk the
subject; at a match emit the expanded replacement and continue after the
matched text, otherwise emit one character. `fuel` bounds the recursion
and every caller passes more fuel than there are characters. -/
def scanGo (m : List Char → Option (List Char)) (repl : List Char) :
    Nat → List Char → List Char → List Char
  | 0, _, s => s
  | fuel + 1, before, s =>
      match m s with
      | some matched =>
          expandSub repl matched before (s.drop matched.length) ++
            scanGo m repl fuel (before ++ matched) (s.drop matched.length)
      | none =>
          match s with
          | [] => []
          | c :: t => c :: scanGo m repl fuel (before ++ [c]) t

/-- The same scan for the empty pattern (an empty regex matches the empty
string before every character and at the end). -/
def replaceEmptyGo (repl : List Char) : List Char → List Char → List Char
  | before, [] => expandSub repl [] before []
  | before, c :: t =>
      expandSub repl [] before (c :: t) ++ c :: replaceEmptyGo repl (before ++ [c]) t

/-- `subject.replace(new RegExp(escapeRegex(pat), 'g'), repl)`: since every
character special to the regex engine is escaped, the pattern matches
literally. -/
def jsReplaceAll (pat repl s : List Char) : List Char :=
  if pat = [] then replaceEmptyGo repl [] s
  else scanGo (litMatcher pat) repl (s.length + 1) [] s

/-- One entry of `restoreMediaUrls`: replace every match of the regex
made of an optional dot, then `/media/`, then the escaped filename, by
the url. -/
def jsRestoreAll (fn url s : List Char) : List Char :=
  scanGo (restoreMatcher fn) url (s.length + 1) [] s

/-- media-handler.js `replaceMediaUrls(content, mapping)`: for each
`[url, filename]` entry in order, replace every occurrence of the
escaped-to-literal url with `./media/<filename>` (the replacement string
is subject to dollar expansion by the engine). -/
def replaceMediaUrls (content : String) (mapping : List (String × String)) :
    String :=
  mapping.foldl
    (fun result kv =>
      String.mk (jsReplaceAll kv.1.data ("./media/" ++ kv.2).data result.data))
    content

/-- media-handler.js `restoreMediaUrls(content, mapping)`: for each
`[filename, url]` entry in order, replace every `./media/<filename>` or
`/media/<filename>` occurrence with the url (again subject to dollar
expansion). -/
def restoreMediaUrls (content : String) (mapping : List (String × String)) :
    String :=
  mapping.foldl
    (fun result kv => String.mk (jsRestoreAll kv.1.data kv.2.data result.data))
    content

/-- Spec-level literal replacement ("URL rewriting must perform literal
matching … and must rewrite all occurrences"): replace every literal
occurrence of `pat`, inserting `repl` verbatim. Stated from the spec
words for comparison with the engine behaviour. -/
def specReplaceGo (pat repl : List Char) : Nat → List Char → List Char
  | 0, s => s
  | fuel + 1, s =>
      if pat.isPrefixOf s = true ∧ pat ≠ [] then
        repl ++ specReplaceGo pat repl fuel (s.drop pat.length)
      else
        match s with
        | [] => []
        | c :: t => c :: specReplaceGo pat repl fuel t

def specLiteralReplaceAll (content pat repl : String) : String :=
  String.mk (specReplaceGo pat.data repl.data (content.data.length + 1)
    content.data)

/-- Spec-level literal restore: replace every `./media/<fn>` or
`/media/<fn>` occurrence, inserting the url verbatim. -/
def specRestoreGo (fn url : List Char) : Nat → List Char → List Char
  | 0, s => s
  | fuel + 1, s =>
      if ('.' :: mediaPat fn).isPrefixOf s = true then
        url ++ specRestoreGo fn url fuel (s.drop ('.' :: mediaPat fn).length)
      else if (mediaPat fn).isPrefixOf s = true then
        url ++ specRestoreGo fn url fuel (s.drop (mediaPat fn).length)
      else
        match s with
        | [] => []
        | c :: t => c :: specRestoreGo fn url fuel t

def specLiteralRestoreAll (content fn url : String) : String :=
  String.mk (specRestoreGo fn.data url.data (content.data.length + 1)
    content.data)

theorem expandSub_noDollar {tpl : List Char} (h : tpl.contains '$' = false) :
    ∀ m b a, expandSub tpl m b a = tpl := by
  induction tpl with
  | nil => intro m b a; rfl
  | cons c rest ih =>
      intro m b a
      have hc : ¬ c = '$' := by
        intro hq
        subst hq
        have : ('$' :: rest).contains '$' = true := by
          rw [List.elem_iff]
          exact List.mem_cons_self _ _
        rw [this] at h
        cases h
      have ht : rest.contains '$' = false := by
        cases hh : rest.contains '$' with
        | false => rfl
        | true =>
            have hmem : '$' ∈ rest := by rw [← List.elem_iff]; exact hh
            have : (c :: rest).contains '$' = true := by
              rw [List.elem_iff]
              exact List.mem_cons_of_mem _ hmem
            rw [this] at h
            cases h
      cases rest with
      | nil => simp [expandSub, hc]
      | cons c2 t =>
          have e : expandSub (c :: c2 :: t) m b a =
              c :: expandSub (c2 :: t) m b a := by
            simp [expandSub, hc]
          rw [e, ih ht]

theorem noDollarAppend {l1 l2 : List Char} (h1 : l1.contains '$' = false)
    (h2 : l2.contains '$' = false) : (l1 ++ l2).contains '$' = false := by
  cases h : (l1 ++ l2).contains '$' with
  | false => rfl
  | true =>
      rw [List.elem_iff, List.mem_append] at h
      rcases h with h | h
      · have : l1.contains '$' = true := by rw [List.elem_iff]; exact h
        rw [h1] at this; cases this
      · have : l2.contains '$' = true := by rw [List.elem_iff]; exact h
        rw [h2] at this; cases this

theorem scanGo_lit_eq_spec (pat repl : List Char)
    (hrepl : ∀ m b a, expandSub repl m b a = repl) :
    ∀ fuel before s, scanGo (litMatcher pat) repl fuel before s =
      specReplaceGo pat repl fuel s := by
  intro fuel
  induction fuel with
  | zero => intro before s; rfl
  | succ fuel ih =>
      intro before s
      by_cases hm : pat.isPrefixOf s = true ∧ pat ≠ []
      · have hmm : litMatcher pat s = some pat := by
          simp only [litMatcher]; rw [if_pos hm]
        have e1 : scanGo (litMatcher pat) repl (fuel + 1) before s =
            expandSub repl pat before (s.drop pat.length) ++
              scanGo (litMatcher pat) repl fuel (before ++ pat)
                (s.drop pat.length) := by
          simp only [scanGo]; rw [hmm]
        have e2 : specReplaceGo pat repl (fuel + 1) s =
            repl ++ specReplaceGo pat repl fuel (s.drop pat.length) := by
          simp only [specReplaceGo]; rw [if_pos hm]
        rw [e1, e2, hrepl, ih]
      · have hmm : litMatcher pat s = none := by
          simp only [litMatcher]; rw [if_neg hm]
        cases s with
        | nil =>
            have e1 : scanGo (litMatcher pat) repl (fuel + 1) before [] = [] := by
              simp only [scanGo]; rw [hmm]
            have e2 : specReplaceGo pat repl (fuel + 1) [] = [] := by
              simp only [specReplaceGo]; rw [if_neg hm]
            rw [e1, e2]
        | cons c t =>
            have e1 : scanGo (litMatcher pat) repl (fuel + 1) before (c :: t) =
                c :: scanGo (litMatcher pat) repl fuel (before ++ [c]) t := by
              simp only [scanGo]; rw [hmm]
            have e2 : specReplaceGo pat repl (fuel + 1) (c :: t) =
                c :: specReplaceGo pat repl fuel t := by
              simp only [specReplaceGo]; rw [if_neg hm]
            rw [e1, e2, ih]

theorem scanGo_restore_eq_spec (fn url : List Char)
    (hrepl : ∀ m b a, expandSub url m b a = url) :
    ∀ fuel before s, scanGo (restoreMatcher fn) url fuel before s =
      specRestoreGo fn url fuel s := by
  intro fuel
  induction fuel with
  | zero => intro before s; rfl
  | succ fuel ih =>
      intro before s
      by_cases h1 : ('.' :: mediaPat fn).isPrefixOf s = true
      · have hmm : restoreMatcher fn s = some ('.' :: mediaPat fn) := by
          simp only [restoreMatcher]; rw [if_pos h1]
        have e1 : scanGo (restoreMatcher fn) url (fuel + 1) before s =
            expandSub url ('.' :: mediaPat fn) before
                (s.drop ('.' :: mediaPat fn).length) ++
              scanGo (restoreMatcher fn) url fuel (before ++ '.' :: mediaPat fn)
                (s.drop ('.' :: mediaPat fn).length) := by
          simp only [scanGo]; rw [hmm]
        have e2 : specRestoreGo fn url (fuel + 1) s =
            url ++ specRestoreGo fn url fuel
              (s.drop ('.' :: mediaPat fn).length) := by
          simp only [specRestoreGo]; rw [if_pos h1]
        rw [e1, e2, hrepl, ih]
      · by_cases h2 : (mediaPat fn).isPrefixOf s = true
        · have hmm : restoreMatcher fn s = some (mediaPat fn) := by
            simp only [restoreMatcher]; rw [if_neg h1, if_pos h2]
          have e1 : scanGo (restoreMatcher fn) url (fuel + 1) before s =
              expandSub url (mediaPat fn) before
                  (s.drop (mediaPat fn).length) ++
                scanGo (restoreMatcher fn) url fuel (before ++ mediaPat fn)
                  (s.drop (mediaPat fn).length) := by
            simp only [scanGo]; rw [hmm]
          have e2 : specRestoreGo fn url (fuel + 1) s =
              url ++ specRestoreGo fn url fuel (s.drop (mediaPat fn).length) := by
            simp only [specRestoreGo]; rw [if_neg h1, if_pos h2]
          rw [e1, e2, hrepl, ih]
        · have hmm : restoreMatcher fn s = none := by
            simp only [restoreMatcher]; rw [if_neg h1, if_neg h2]
          cases s with
          | nil =>
              have e1 : scanGo (restoreMatcher fn) url (fuel + 1) before [] = [] := by
                simp only [scanGo]; rw [hmm]
              have e2 : specRestoreGo fn url (fuel + 1) [] = [] := by
                simp only [specRestoreGo]; rw [if_neg h1, if_neg h2]
              rw [e1, e2]
          | cons c t =>
              have e1 : scanGo (restoreMatcher fn) url (fuel + 1) before (c :: t) =
                  c :: scanGo (restoreMatcher fn) url fuel (before ++ [c]) t := by
                simp only [scanGo]; rw [hmm]
              have e2 : specRestoreGo fn url (fuel + 1) (c :: t) =
                  c :: specRestoreGo fn url fuel t := by
                simp only [specRestoreGo]; rw [if_neg h1, if_neg h2]
              rw [e1, e2, ih]

/-- C6 counterexample: a mapping whose two filenames are in a prefix
relation (a.png, a.pngx) and a content whose asset references are exactly
the two mapped URLs. Rewriting and then restoring with the inverse
mapping does not give the content back: restoring a.png also fires inside
./media/a.pngx. -/
theorem c6_counterexample :
    restoreMediaUrls
        (replaceMediaUrls "<img src=http://s/a.png> <img src=http://s/zzz.png>"
          [("http://s/a.png", "a.png"), ("http://s/zzz.png", "a.pngx")])
        ([("http://s/a.png", "a.png"),
          ("http://s/zzz.png", "a.pngx")].map Prod.swap) =
      "<img src=http://s/a.png> <img src=http://s/a.pngx>" ∧
    restoreMediaUrls
        (replaceMediaUrls "<img src=http://s/a.png> <img src=http://s/zzz.png>"
          [("http://s/a.png", "a.png"), ("http://s/zzz.png", "a.pngx")])
        ([("http://s/a.png", "a.png"),
          ("http://s/zzz.png", "a.pngx")].map Prod.swap) ≠
      "<img src=http://s/a.png> <img src=http://s/zzz.png>" := by
  refine ⟨by decide, by decide⟩

/-- C7 counterexample: the replacement side is not literal — a mapped URL
holding the engine-special sequence dollar-ampersand is expanded to the
matched text instead of being inserted verbatim, so the restore output
differs from the literal-replacement output. -/
theorem c7_counterexample :
    restoreMediaUrls "x ./media/f.jpg y" [("f.jpg", "http://s/$&1.png")] =
      "x http://s/./media/f.jpg1.png y" ∧
    specLiteralRestoreAll "x ./media/f.jpg y" "f.jpg" "http://s/$&1.png" =
      "x http://s/$&1.png y" ∧
    restoreMediaUrls "x ./media/f.jpg y" [("f.jpg", "http://s/$&1.png")] ≠
      specLiteralRestoreAll "x ./media/f.jpg y" "f.jpg" "http://s/$&1.png" := by
  refine ⟨by decide, by decide, by decide⟩

/-- C7 amended: the matching side is always literal (every regex-special
character is escaped) and global; the replacement side is inserted
verbatim provided it contains no dollar character. Under that proviso
each direction coincides with spec-level literal replace-all of every
occurrence (for a non-empty mapped URL in the replace direction). -/
theorem c7_literal_matching_amended :
    (∀ content url fn : String, url.data ≠ [] →
      fn.data.contains '$' = false →
      replaceMediaUrls content [(url, fn)] =
        specLiteralReplaceAll content url ("./media/" ++ fn)) ∧
    (∀ content fn url : String, url.data.contains '$' = false →
      restoreMediaUrls content [(fn, url)] =
        specLiteralRestoreAll content fn url) := by
  constructor
  · intro content url fn hne hfn
    have hrepl : ∀ m b a,
        expandSub ("./media/" ++ fn).data m b a = ("./media/" ++ fn).data := by
      intro m b a
      apply expandSub_noDollar
      have : ("./media/" ++ fn).data = "./media/".data ++ fn.data := by
        simp [String.data_append]
      rw [this]
      exact noDollarAppend (by decide) hfn
    show String.mk (jsReplaceAll url.data ("./media/" ++ fn).data content.data) =
      specLiteralReplaceAll content url ("./media/" ++ fn)
    unfold jsReplaceAll specLiteralReplaceAll
    rw [if_neg hne, scanGo_lit_eq_spec url.data ("./media/" ++ fn).data hrepl]
  · intro content fn url hurl
    have hrepl : ∀ m b a, expandSub url.data m b a = url.data :=
      expandSub_noDollar hurl
    show String.mk (jsRestoreAll fn.data url.data content.data) =
      specLiteralRestoreAll content fn url
    unfold jsRestoreAll specLiteralRestoreAll
    rw [scanGo_restore_eq_spec fn.data url.data hrepl]

/-- C7 amended witness: a URL full of regex-special characters is matched
literally and both of its occurrences are rewritten. -/
theorem c7_witness :
    replaceMediaUrls "a http://s/p?(1).png b http://s/p?(1).png"
        [("http://s/p?(1).png", "p-1.png")] =
      specLiteralReplaceAll "a http://s/p?(1).png b http://s/p?(1).png"
        "http://s/p?(1).png" ("./media/" ++ "p-1.png") :=
  c7_literal_matching_amended.1 "a http://s/p?(1).png b http://s/p?(1).png"
    "http://s/p?(1).png" "p-1.png" (by decide) (by decide)

/-! ## Round trip of replace/restore (claim C6) -/

theorem scanGo_nil_eq {m : List Char → Option (List Char)} {repl : List Char}
    (hnil : m [] = none) (fuel : Nat) (before : List Char) :
    scanGo m repl (fuel + 1) before [] = [] := by
  simp only [scanGo]; rw [hnil]

theorem scanGo_cons_none {m : List Char → Option (List Char)}
    {repl : List Char} {c : Char} {t : List Char} (h : m (c :: t) = none)
    (fuel : Nat) (before : List Char) :
    scanGo m repl (fuel + 1) before (c :: t) =
      c :: scanGo m repl fuel (before ++ [c]) t := by
  simp only [scanGo]; rw [h]

theorem scanGo_some {m : List Char → Option (List Char)} {repl : List Char}
    {s matched : List Char} (h : m s = some matched) (fuel : Nat)
    (before : List Char) :
    scanGo m repl (fuel + 1) before s =
      expandSub repl matched before (s.drop matched.length) ++
        scanGo m repl fuel (before ++ matched) (s.drop matched.length) := by
  simp only [scanGo]; rw [h]

/-- No match fires at any position strictly inside `t` when followed by
`rest`. -/
def NoFire (m : List Char → Option (List Char)) (t rest : List Char) : Prop :=
  ∀ k, k < t.length → m (t.drop k ++ rest) = none

/-- The part of the subject made of the (match, trailing text) blocks. -/
def assembleBlocks (ps : List (List Char × List Char)) : List Char :=
  (ps.map fun pt => pt.1 ++ pt.2).flatten

/-- The matcher fires exactly at the head of each block, consuming the
block's match part, and nowhere inside the trailing text parts. -/
def BlocksOK (m : List Char → Option (List Char)) :
    List (List Char × List Char) → Prop
  | [] => True
  | (p, t) :: rest =>
      m (p ++ (t ++ assembleBlocks rest)) = some p ∧
        NoFire m t (assembleBlocks rest) ∧ BlocksOK m rest

instance (m : List Char → Option (List Char)) (t rest : List Char) :
    Decidable (NoFire m t rest) := by
  unfold NoFire; infer_instance

def decBlocksOK (m : List Char → Option (List Char)) :
    (ps : List (List Char × List Char)) → Decidable (BlocksOK m ps)
  | [] => isTrue trivial
  | (p, t) :: rest =>
      haveI := decBlocksOK m rest
      inferInstanceAs (Decidable (_ ∧ _ ∧ _))

instance (m : List Char → Option (List Char)) (ps : List (List Char × List Char)) :
    Decidable (BlocksOK m ps) :=
  decBlocksOK m ps

theorem scanGo_walk (m : List Char → Option (List Char)) (repl : List Char) :
    ∀ (t rest before : List Char) (fuel : Nat), NoFire m t rest →
      scanGo m repl (t.length + fuel) before (t ++ rest) =
        t ++ scanGo m repl fuel (before ++ t) rest := by
  intro t
  induction t with
  | nil => intro rest before fuel h; simp
  | cons c t' ih =>
      intro rest before fuel h
      have h0 : m (c :: (t' ++ rest)) = none := by
        have := h 0 (by simp)
        simpa using this
      have harith : (c :: t').length + fuel = (t'.length + fuel) + 1 := by
        simp [List.length_cons]; omega
      rw [harith]
      rw [show (c :: t') ++ rest = c :: (t' ++ rest) from rfl]
      rw [scanGo_cons_none h0 (t'.length + fuel) before]
      have ht' : NoFire m t' rest := by
        intro k hk
        have := h (k + 1) (by simp; omega)
        simpa using this
      rw [ih rest (before ++ [c]) fuel ht']
      simp

theorem scanGo_blocks (m : List Char → Option (List Char)) (repl : List Char)
    (hrepl : ∀ ma b a, expandSub repl ma b a = repl)
    (hnil : m [] = none)
    (hpre : ∀ s matched, m s = some matched →
      matched.isPrefixOf s = true ∧ matched ≠ []) :
    ∀ (ps : List (List Char × List Char)) (before : List Char) (fuel : Nat),
      (assembleBlocks ps).length < fuel → BlocksOK m ps →
      scanGo m repl fuel before (assembleBlocks ps) =
        (ps.map fun pt => repl ++ pt.2).flatten := by
  intro ps
  induction ps with
  | nil =>
      intro before fuel hfuel hok
      cases fuel with
      | zero => simp at hfuel
      | succ f =>
          rw [show assembleBlocks [] = [] from rfl,
            scanGo_nil_eq hnil f before]
          rfl
  | cons pt rest ih =>
      obtain ⟨p, t⟩ := pt
      intro before fuel hfuel hok
      obtain ⟨hfire, hnof, hok'⟩ := hok
      have hs : assembleBlocks ((p, t) :: rest) =
          p ++ (t ++ assembleBlocks rest) := by
        simp [assembleBlocks]
      obtain ⟨-, hpne⟩ := hpre _ _ hfire
      have hplen : 1 ≤ p.length := by
        cases p with
        | nil => exact absurd rfl hpne
        | cons a b => simp
      rw [hs] at hfuel
      simp only [List.length_append] at hfuel
      cases fuel with
      | zero => omega
      | succ f =>
          rw [hs, scanGo_some hfire f before]
          rw [show (p ++ (t ++ assembleBlocks rest)).drop p.length =
            t ++ assembleBlocks rest from List.drop_left _ _]
          rw [hrepl]
          have hf : f = t.length + (f - t.length) := by omega
          rw [hf, scanGo_walk m repl t (assembleBlocks rest) (before ++ p)
            (f - t.length) hnof]
          rw [ih (before ++ p ++ t) (f - t.length) (by omega) hok']
          simp

theorem scanGo_splice (m : List Char → Option (List Char)) (repl : List Char)
    (hrepl : ∀ ma b a, expandSub repl ma b a = repl)
    (hnil : m [] = none)
    (hpre : ∀ s matched, m s = some matched →
      matched.isPrefixOf s = true ∧ matched ≠ []) :
    ∀ (t0 : List Char) (ps : List (List Char × List Char)) (before : List Char)
      (fuel : Nat),
      (t0 ++ assembleBlocks ps).length < fuel →
      NoFire m t0 (assembleBlocks ps) → BlocksOK m ps →
      scanGo m repl fuel before (t0 ++ assembleBlocks ps) =
        t0 ++ (ps.map fun pt => repl ++ pt.2).flatten := by
  intro t0 ps before fuel hfuel hnof hok
  simp only [List.length_append] at hfuel
  have hf : fuel = t0.length + (fuel - t0.length) := by omega
  rw [hf, scanGo_walk m repl t0 (assembleBlocks ps) before
    (fuel - t0.length) hnof]
  rw [scanGo_blocks m repl hrepl hnil hpre ps (before ++ t0)
    (fuel - t0.length) (by omega) hok]

/-- A content shape for the round-trip statement: literal text
interleaved with asset references (indices into the mapping). -/
inductive Tok where
  | txt : String → Tok
  | ref : Nat → Tok
deriving DecidableEq

/-- The url of the j-th mapping entry, as characters. -/
def urlOf (M : List (String × String)) (j : Nat) : List Char :=
  ((M.getD j ("", "")).1).data

/-- The filename of the j-th mapping entry, as characters. -/
def fnChars (M : List (String × String)) (j : Nat) : List Char :=
  ((M.getD j ("", "")).2).data

/-- The local form `./media/<filename>` of the j-th entry, as characters. -/
def blockOf (M : List (String × String)) (j : Nat) : List Char :=
  '.' :: mediaPat (fnChars M j)

/-- Rendering of one token after the first `i` replace steps: references
already processed show their local form, the rest still their url. -/
def tokRep (M : List (String × String)) (i : Nat) : Tok → List Char
  | .txt s => s.data
  | .ref j => if j < i then blockOf M j else urlOf M j

/-- Rendering of one token after the first `i` restore steps. -/
def tokRes (M : List (String × String)) (i : Nat) : Tok → List Char
  | .txt s => s.data
  | .ref j => if j < i then urlOf M j else blockOf M j

def renderToks (f : Tok → List Char) (ts : List Tok) : List Char :=
  (ts.map f).flatten

/-- Split a token list around the occurrences of reference `i`: the
leading text and, for each `ref i`, its rendering together with the text
up to the next `ref i`. -/
def decompose (f : Tok → List Char) (i : Nat) :
    List Tok → List Char × List (List Char × List Char)
  | [] => ([], [])
  | tok :: ts =>
      let d := decompose f i ts
      if tok = Tok.ref i then ([], (f tok, d.1) :: d.2)
      else (f tok ++ d.1, d.2)

theorem decompose_assemble (f : Tok → List Char) (i : Nat) :
    ∀ ts : List Tok,
      (decompose f i ts).1 ++ assembleBlocks (decompose f i ts).2 =
        renderToks f ts := by
  intro ts
  induction ts with
  | nil => rfl
  | cons tok ts ih =>
      by_cases h : tok = Tok.ref i
      · rw [show decompose f i (tok :: ts) =
          ([], (f tok, (decompose f i ts).1) :: (decompose f i ts).2) by
            simp only [decompose]; rw [if_pos h]]
        show assembleBlocks ((f tok, (decompose f i ts).1) ::
          (decompose f i ts).2) = renderToks f (tok :: ts)
        rw [show assembleBlocks ((f tok, (decompose f i ts).1) ::
            (decompose f i ts).2) = (f tok ++ (decompose f i ts).1) ++
              assembleBlocks (decompose f i ts).2 by simp [assembleBlocks]]
        rw [List.append_assoc, ih]
        rfl
      · rw [show decompose f i (tok :: ts) =
          (f tok ++ (decompose f i ts).1, (decompose f i ts).2) by
            simp only [decompose]; rw [if_neg h]]
        show (f tok ++ (decompose f i ts).1) ++
          assembleBlocks (decompose f i ts).2 = renderToks f (tok :: ts)
        rw [List.append_assoc, ih]
        rfl

theorem decompose_result (f : Tok → List Char) (i : Nat) (r : List Char) :
    ∀ ts : List Tok,
      (decompose f i ts).1 ++
          ((decompose f i ts).2.map fun pt => r ++ pt.2).flatten =
        renderToks (fun tok => if tok = Tok.ref i then r else f tok) ts := by
  intro ts
  induction ts with
  | nil => rfl
  | cons tok ts ih =>
      by_cases h : tok = Tok.ref i
      · rw [show decompose f i (tok :: ts) =
          ([], (f tok, (decompose f i ts).1) :: (decompose f i ts).2) by
            simp only [decompose]; rw [if_pos h]]
        show (((f tok, (decompose f i ts).1) :: (decompose f i ts).2).map
          fun pt => r ++ pt.2).flatten = _
        rw [show (((f tok, (decompose f i ts).1) :: (decompose f i ts).2).map
            fun pt => r ++ pt.2).flatten = (r ++ (decompose f i ts).1) ++
              ((decompose f i ts).2.map fun pt => r ++ pt.2).flatten by
          simp]
        rw [List.append_assoc, ih]
        show r ++ _ = renderToks _ (tok :: ts)
        rw [show renderToks (fun tok => if tok = Tok.ref i then r else f tok)
            (tok :: ts) = (if tok = Tok.ref i then r else f tok) ++
              renderToks (fun tok => if tok = Tok.ref i then r else f tok) ts
          from rfl]
        rw [if_pos h]
      · rw [show decompose f i (tok :: ts) =
          (f tok ++ (decompose f i ts).1, (decompose f i ts).2) by
            simp only [decompose]; rw [if_neg h]]
        show (f tok ++ (decompose f i ts).1) ++ _ = _
        rw [List.append_assoc, ih]
        rw [show renderToks (fun tok => if tok = Tok.ref i then r else f tok)
            (tok :: ts) = (if tok = Tok.ref i then r else f tok) ++
              renderToks (fun tok => if tok = Tok.ref i then r else f tok) ts
          from rfl]
        rw [if_neg h]

theorem litMatcher_nil {pat : List Char} (h : pat ≠ []) :
    litMatcher pat [] = none := by
  simp only [litMatcher]
  rw [if_neg ?_]
  rintro ⟨hp, -⟩
  cases pat with
  | nil => exact h rfl
  | cons c t => cases hp

theorem litMatcher_pre (pat : List Char) :
    ∀ s matched, litMatcher pat s = some matched →
      matched.isPrefixOf s = true ∧ matched ≠ [] := by
  intro s matched h
  simp only [litMatcher] at h
  split at h
  · rename_i hc
    obtain rfl : pat = matched := by injection h
    exact ⟨hc.1, hc.2⟩
  · cases h

theorem mediaPat_ne_nil (fn : List Char) : mediaPat fn ≠ [] := by
  simp [mediaPat]

theorem restoreMatcher_nil (fn : List Char) : restoreMatcher fn [] = none := by
  simp only [restoreMatcher]
  rw [if_neg ?_, if_neg ?_]
  · intro hp
    have := isPrefixOf_length_le hp
    simp [mediaPat] at this
  · intro hp
    cases ('.' :: mediaPat fn) with
    | nil => cases hp
    | cons a b => cases hp

theorem restoreMatcher_pre (fn : List Char) :
    ∀ s matched, restoreMatcher fn s = some matched →
      matched.isPrefixOf s = true ∧ matched ≠ [] := by
  intro s matched h
  simp only [restoreMatcher] at h
  split at h
  · rename_i hc
    obtain rfl : '.' :: mediaPat fn = matched := by injection h
    exact ⟨hc, by simp⟩
  · split at h
    · rename_i hc
      obtain rfl : mediaPat fn = matched := by injection h
      exact ⟨hc, mediaPat_ne_nil fn⟩
    · cases h

theorem tok_step_ne (M : List (String × String)) (i : Nat) {tok : Tok}
    (h : tok ≠ Tok.ref i) : tokRep M (i + 1) tok = tokRep M i tok := by
  cases tok with
  | txt s => rfl
  | ref j =>
      have hj : j ≠ i := fun hh => h (by rw [hh])
      simp only [tokRep]
      by_cases hlt : j < i
      · rw [if_pos hlt, if_pos (by omega)]
      · rw [if_neg hlt, if_neg (by omega)]

theorem tokRes_step_ne (M : List (String × String)) (i : Nat) {tok : Tok}
    (h : tok ≠ Tok.ref i) : tokRes M (i + 1) tok = tokRes M i tok := by
  cases tok with
  | txt s => rfl
  | ref j =>
      have hj : j ≠ i := fun hh => h (by rw [hh])
      simp only [tokRes]
      by_cases hlt : j < i
      · rw [if_pos hlt, if_pos (by omega)]
      · rw [if_neg hlt, if_neg (by omega)]

theorem renderToks_congr {f g : Tok → List Char} {ts : List Tok}
    (h : ∀ tok ∈ ts, f tok = g tok) : renderToks f ts = renderToks g ts := by
  unfold renderToks
  rw [List.map_congr_left h]

/-- One replace step on token-structured content: rewriting url `i` turns
the step-`i` rendering into the step-`i+1` rendering, provided the url
matches exactly at its reference sites. -/
theorem replaceStep (M : List (String × String)) (ts : List Tok) (i : Nat)
    (hne : urlOf M i ≠ [])
    (hnd : (blockOf M i).contains '$' = false)
    (hnof : NoFire (litMatcher (urlOf M i)) (decompose (tokRep M i) i ts).1
      (assembleBlocks (decompose (tokRep M i) i ts).2))
    (hok : BlocksOK (litMatcher (urlOf M i)) (decompose (tokRep M i) i ts).2) :
    jsReplaceAll (urlOf M i) (blockOf M i) (renderToks (tokRep M i) ts) =
      renderToks (tokRep M (i + 1)) ts := by
  unfold jsReplaceAll
  rw [if_neg hne]
  rw [show renderToks (tokRep M i) ts = (decompose (tokRep M i) i ts).1 ++
    assembleBlocks (decompose (tokRep M i) i ts).2 from
    (decompose_assemble _ i ts).symm]
  rw [scanGo_splice (litMatcher (urlOf M i)) (blockOf M i)
    (expandSub_noDollar hnd) (litMatcher_nil hne) (litMatcher_pre _)
    _ _ [] _ (by omega) hnof hok]
  rw [decompose_result (tokRep M i) i (blockOf M i) ts]
  apply renderToks_congr
  intro tok hmem
  by_cases h : tok = Tok.ref i
  · rw [if_pos h, h]
    simp [tokRep]
  · rw [if_neg h, tok_step_ne M i h]

/-- One restore step on token-structured content. -/
theorem restoreStep (M : List (String × String)) (ts : List Tok) (i : Nat)
    (hnd : (urlOf M i).contains '$' = false)
    (hnof : NoFire (restoreMatcher (fnChars M i)) (decompose (tokRes M i) i ts).1
      (assembleBlocks (decompose (tokRes M i) i ts).2))
    (hok : BlocksOK (restoreMatcher (fnChars M i))
      (decompose (tokRes M i) i ts).2) :
    jsRestoreAll (fnChars M i) (urlOf M i) (renderToks (tokRes M i) ts) =
      renderToks (tokRes M (i + 1)) ts := by
  unfold jsRestoreAll
  rw [show renderToks (tokRes M i) ts = (decompose (tokRes M i) i ts).1 ++
    assembleBlocks (decompose (tokRes M i) i ts).2 from
    (decompose_assemble _ i ts).symm]
  rw [scanGo_splice (restoreMatcher (fnChars M i)) (urlOf M i)
    (expandSub_noDollar hnd) (restoreMatcher_nil _) (restoreMatcher_pre _)
    _ _ [] _ (by omega) hnof hok]
  rw [decompose_result (tokRes M i) i (urlOf M i) ts]
  apply renderToks_congr
  intro tok hmem
  by_cases h : tok = Tok.ref i
  · rw [if_pos h, h]
    simp [tokRes]
  · rw [if_neg h, tokRes_step_ne M i h]

theorem dropGetD {α : Type} : ∀ (M : List α) (j : Nat) {kv : α} {L : List α},
    M.drop j = kv :: L → ∀ d, M.getD j d = kv := by
  intro M
  induction M with
  | nil => intro j kv L h d; simp at h
  | cons x M ih =>
      intro j kv L h d
      cases j with
      | zero => simp at h; simp [h.1]
      | succ j =>
          simp only [List.drop_succ_cons] at h
          simpa using ih j h d

theorem dropSucc {α : Type} : ∀ (M : List α) (j : Nat) {kv : α} {L : List α},
    M.drop j = kv :: L → M.drop (j + 1) = L := by
  intro M
  induction M with
  | nil => intro j kv L h; simp at h
  | cons x M ih =>
      intro j kv L h
      cases j with
      | zero => simp at h ⊢; exact h.2
      | succ j =>
          simp only [List.drop_succ_cons] at h ⊢
          exact ih j h

theorem dropLt {α : Type} : ∀ (M : List α) (j : Nat) {kv : α} {L : List α},
    M.drop j = kv :: L → j < M.length := by
  intro M j kv L h
  by_contra hc
  rw [List.drop_eq_nil_of_le (by omega)] at h
  cases h

theorem mediaBlockData (f : String) :
    ("./media/" ++ f).data = '.' :: mediaPat f.data := by
  rw [String.data_append]
  rw [show "./media/".data = '.' :: "/media/".data by decide]
  rfl

/-- Validity of one token against a mapping of `n` entries. -/
def tokValid (n : Nat) : Tok → Bool
  | .txt _ => true
  | .ref j => j < n

/-- The side conditions under which the round trip is exact: every
reference index is in range and, at every rewriting step in both
directions, the pattern of that step matches the intermediate content
exactly at that reference's sites (and the inserted strings contain no
dollar, urls are non-empty). -/
def RoundTripOK (M : List (String × String)) (ts : List Tok) : Prop :=
  (∀ tok ∈ ts, tokValid M.length tok = true) ∧
    ∀ i, i < M.length →
      ((urlOf M i ≠ [] ∧ (blockOf M i).contains '$' = false ∧
        NoFire (litMatcher (urlOf M i)) (decompose (tokRep M i) i ts).1
          (assembleBlocks (decompose (tokRep M i) i ts).2) ∧
        BlocksOK (litMatcher (urlOf M i)) (decompose (tokRep M i) i ts).2) ∧
      ((urlOf M i).contains '$' = false ∧
        NoFire (restoreMatcher (fnChars M i)) (decompose (tokRes M i) i ts).1
          (assembleBlocks (decompose (tokRes M i) i ts).2) ∧
        BlocksOK (restoreMatcher (fnChars M i))
          (decompose (tokRes M i) i ts).2))

instance (M : List (String × String)) (ts : List Tok) :
    Decidable (RoundTripOK M ts) := by
  unfold RoundTripOK; infer_instance

theorem replaceFoldAux (M : List (String × String)) (ts : List Tok)
    (hyp : ∀ i, i < M.length →
      urlOf M i ≠ [] ∧ (blockOf M i).contains '$' = false ∧
      NoFire (litMatcher (urlOf M i)) (decompose (tokRep M i) i ts).1
        (assembleBlocks (decompose (tokRep M i) i ts).2) ∧
      BlocksOK (litMatcher (urlOf M i)) (decompose (tokRep M i) i ts).2) :
    ∀ (L : List (String × String)) (j : Nat), M.drop j = L →
      List.foldl
        (fun result kv =>
          String.mk (jsReplaceAll kv.1.data ("./media/" ++ kv.2).data
            result.data))
        (String.mk (renderToks (tokRep M j) ts)) L =
      String.mk (renderToks (tokRep M (j + L.length)) ts) := by
  intro L
  induction L with
  | nil => intro j h; simp
  | cons kv L ih =>
      intro j h
      have hget := dropGetD M j h ("", "")
      have hdrop := dropSucc M j h
      have hlt := dropLt M j h
      obtain ⟨hne, hnd, hnof, hok⟩ := hyp j hlt
      rw [List.foldl_cons]
      have hstep : String.mk (jsReplaceAll kv.1.data
          ("./media/" ++ kv.2).data
          (String.mk (renderToks (tokRep M j) ts)).data) =
          String.mk (renderToks (tokRep M (j + 1)) ts) := by
        have h1 : kv.1.data = urlOf M j := by rw [urlOf, hget]
        have h2 : ("./media/" ++ kv.2).data = blockOf M j := by
          rw [mediaBlockData, blockOf, fnChars, hget]
        rw [show (String.mk (renderToks (tokRep M j) ts)).data =
          renderToks (tokRep M j) ts from rfl]
        rw [h1, h2, replaceStep M ts j hne hnd hnof hok]
      rw [hstep, ih (j + 1) hdrop]
      have : j + 1 + L.length = j + (kv :: L).length := by simp; omega
      rw [this]

theorem restoreFoldAux (M : List (String × String)) (ts : List Tok)
    (hyp : ∀ i, i < M.length →
      (urlOf M i).contains '$' = false ∧
      NoFire (restoreMatcher (fnChars M i)) (decompose (tokRes M i) i ts).1
        (assembleBlocks (decompose (tokRes M i) i ts).2) ∧
      BlocksOK (restoreMatcher (fnChars M i)) (decompose (tokRes M i) i ts).2) :
    ∀ (L : List (String × String)) (j : Nat), (M.map Prod.swap).drop j = L →
      List.foldl
        (fun result kv =>
          String.mk (jsRestoreAll kv.1.data kv.2.data result.data))
        (String.mk (renderToks (tokRes M j) ts)) L =
      String.mk (renderToks (tokRes M (j + L.length)) ts) := by
  intro L
  induction L with
  | nil => intro j h; simp
  | cons kv L ih =>
      intro j h
      have hget := dropGetD (M.map Prod.swap) j h ("", "")
      have hdrop := dropSucc (M.map Prod.swap) j h
      have hlt : j < M.length := by
        have := dropLt (M.map Prod.swap) j h
        simpa using this
      obtain ⟨hnd, hnof, hok⟩ := hyp j hlt
      have hswap : kv = Prod.swap (M.getD j ("", "")) := by
        rw [← hget]
        rw [List.getD_eq_getElem?_getD, List.getD_eq_getElem?_getD]
        rw [List.getElem?_map]
        rw [show (M[j]?.map Prod.swap).getD ("", "") =
          Prod.swap (M[j]?.getD ("", "")) by
            cases M[j]? <;> rfl]
      rw [List.foldl_cons]
      have hstep : String.mk (jsRestoreAll kv.1.data kv.2.data
          (String.mk (renderToks (tokRes M j) ts)).data) =
          String.mk (renderToks (tokRes M (j + 1)) ts) := by
        have h1 : kv.1.data = fnChars M j := by rw [hswap]; rfl
        have h2 : kv.2.data = urlOf M j := by rw [hswap]; rfl
        rw [show (String.mk (renderToks (tokRes M j) ts)).data =
          renderToks (tokRes M j) ts from rfl]
        rw [h1, h2, restoreStep M ts j hnd hnof hok]
      rw [hstep, ih (j + 1) hdrop]
      have : j + 1 + L.length = j + (kv :: L).length := by simp; omega
      rw [this]

/-- C6 amended: on content made of literal text and asset references that
are exactly the mapping's URLs, rewriting with the mapping and then
restoring with its inverse gives back the original content, provided each
step's pattern matches the intermediate content only at that reference's
sites, mapped URLs are non-empty, and URLs and filenames contain no
dollar character (the unrestricted claim is refuted by
the filename-prefix counterexample). -/
theorem c6_round_trip_amended (M : List (String × String)) (ts : List Tok)
    (h : RoundTripOK M ts) :
    restoreMediaUrls
        (replaceMediaUrls (String.mk (renderToks (tokRep M 0) ts)) M)
        (M.map Prod.swap) =
      String.mk (renderToks (tokRep M 0) ts) := by
  obtain ⟨hvalid, hsteps⟩ := h
  have hrep : replaceMediaUrls (String.mk (renderToks (tokRep M 0) ts)) M =
      String.mk (renderToks (tokRep M M.length) ts) := by
    unfold replaceMediaUrls
    have := replaceFoldAux M ts (fun i hi => (hsteps i hi).1) M 0 (by simp)
    simpa using this
  have hmid : renderToks (tokRep M M.length) ts =
      renderToks (tokRes M 0) ts := by
    apply renderToks_congr
    intro tok hmem
    cases tok with
    | txt s => rfl
    | ref j =>
        have := hvalid _ hmem
        simp only [tokValid, decide_eq_true_eq] at this
        simp only [tokRep, tokRes]
        rw [if_pos this, if_neg (by omega)]
  have hres : restoreMediaUrls (String.mk (renderToks (tokRes M 0) ts))
      (M.map Prod.swap) = String.mk (renderToks (tokRes M M.length) ts) := by
    unfold restoreMediaUrls
    have := restoreFoldAux M ts (fun i hi => (hsteps i hi).2) (M.map Prod.swap)
      0 (by simp)
    simpa using this
  have hend : renderToks (tokRes M M.length) ts =
      renderToks (tokRep M 0) ts := by
    apply renderToks_congr
    intro tok hmem
    cases tok with
    | txt s => rfl
    | ref j =>
        have := hvalid _ hmem
        simp only [tokValid, decide_eq_true_eq] at this
        simp only [tokRep, tokRes]
        rw [if_pos this, if_neg (by omega)]
  rw [hrep, hmid, hres, hend]

/-- C6 witness mapping: two URLs with unrelated filenames. -/
def c6M : List (String × String) :=
  [("http://s/a.png", "a-1.jpg"), ("http://s/b.png", "b-2.jpg")]

/-- C6 witness content: two image tags referencing exactly the mapped
URLs. -/
def c6Ts : List Tok :=
  [.txt "<img src=", .ref 0, .txt "> <img src=", .ref 1, .txt ">"]

/-- C6 amended witness: the side conditions hold for a concrete two-entry
mapping and the round trip returns the original content. -/
theorem c6_witness :
    RoundTripOK c6M c6Ts ∧
      restoreMediaUrls
          (replaceMediaUrls (String.mk (renderToks (tokRep c6M 0) c6Ts)) c6M)
          (c6M.map Prod.swap) =
        String.mk (renderToks (tokRep c6M 0) c6Ts) :=
  ⟨by decide, c6_round_trip_amended c6M c6Ts (by decide)⟩

/-! ## Filename derivation (lib/media-handler.js `generateFilename`) -/

/-- The MD5 sine-derived constant table (RFC 1321). -/
def md5K : List Nat :=
  [3614090360, 3905402710, 606105819, 3250441966, 4118548399, 1200080426,
   2821735955, 4249261313, 1770035416, 2336552879, 4294925233, 2304563134,
   1804603682, 4254626195, 2792965006, 1236535329, 4129170786, 3225465664,
   643717713, 3921069994, 3593408605, 38016083, 3634488961, 3889429448,
   568446438, 3275163606, 4107603335, 1163531501, 2850285829, 4243563512,
   1735328473, 2368359562, 4294588738, 2272392833, 1839030562, 4259657740,
   2763975236, 1272893353, 4139469664, 3200236656, 681279174, 3936430074,
   3572445317, 76029189, 3654602809, 3873151461, 530742520, 3299628645,
   4096336452, 1126891415, 2878612391, 4237533241, 1700485571, 2399980690,
   4293915773, 2240044497, 1873313359, 4264355552, 2734768916, 1309151649,
   4149444226, 3174756917, 718787259, 3951481745]

/-- The MD5 per-round left-rotation amounts (RFC 1321). -/
def md5S : List Nat :=
  [7, 12, 17, 22, 7, 12, 17, 22, 7, 12, 17, 22, 7, 12, 17, 22,
   5, 9, 14, 20, 5, 9, 14, 20, 5, 9, 14, 20, 5, 9, 14, 20,
   4, 11, 16, 23, 4, 11, 16, 23, 4, 11, 16, 23, 4, 11, 16, 23,
   6, 10, 15, 21, 6, 10, 15, 21, 6, 10, 15, 21, 6, 10, 15, 21]

/-- 32-bit left rotation on `Nat` (values kept below 2^32). -/
def rotl32 (x n : Nat) : Nat :=
  (((x <<< n) % 4294967296) ||| (x >>> (32 - n))) % 4294967296

/-- UTF-8 bytes of a string — what node's `createHash('md5').update(url)`
hashes. -/
def utf8Bytes (s : String) : List Nat :=
  s.data.flatMap fun c =>
    let n := c.toNat
    if n < 128 then [n]
    else if n < 2048 then [192 + n / 64, 128 + n % 64]
    else if n < 65536 then
      [224 + n / 4096, 128 + (n / 64) % 64, 128 + n % 64]
    else
      [240 + n / 262144, 128 + (n / 4096) % 64, 128 + (n / 64) % 64,
        128 + n % 64]

/-- `count` little-endian bytes of `n`. -/
def leBytes : Nat → Nat → List Nat
  | _, 0 => []
  | n, count + 1 => (n % 256) :: leBytes (n / 256) count

/-- MD5 padding: a 0x80 byte, zeros to 56 mod 64, then the bit length as
eight little-endian bytes. -/
def md5Pad (msg : List Nat) : List Nat :=
  let len := msg.length
  let zeros := (119 - len % 64) % 64
  msg ++ [128] ++ List.replicate zeros 0 ++ leBytes ((8 * len) % (2 ^ 64)) 8

/-- Little-endian 32-bit words of a byte list (length a multiple of 4). -/
def toWords : List Nat → List Nat
  | b0 :: b1 :: b2 :: b3 :: rest =>
      (b0 + b1 * 256 + b2 * 65536 + b3 * 16777216) :: toWords rest
  | _ => []

/-- Groups of 16 words (one MD5 block each). -/
def toBlocks : List Nat → List (List Nat)
  | w0 :: w1 :: w2 :: w3 :: w4 :: w5 :: w6 :: w7 :: w8 :: w9 :: w10 :: w11 ::
      w12 :: w13 :: w14 :: w15 :: rest =>
      [w0, w1, w2, w3, w4, w5, w6, w7, w8, w9, w10, w11, w12, w13, w14, w15] ::
        toBlocks rest
  | _ => []

/-- One MD5 round step. -/
def md5Round (X : List Nat) (st : Nat × Nat × Nat × Nat) (i : Nat) :
    Nat × Nat × Nat × Nat :=
  let a := st.1
  let b := st.2.1
  let c := st.2.2.1
  let d := st.2.2.2
  let fg : Nat × Nat :=
    if i < 16 then ((b &&& c) ||| ((b ^^^ 4294967295) &&& d), i)
    else if i < 32 then ((d &&& b) ||| ((d ^^^ 4294967295) &&& c), (5 * i + 1) % 16)
    else if i < 48 then (b ^^^ c ^^^ d, (3 * i + 5) % 16)
    else (c ^^^ (b ||| (d ^^^ 4294967295)), (7 * i) % 16)
  let tmp := (a + fg.1 + md5K.getD i 0 + X.getD fg.2 0) % 4294967296
  (d, (b + rotl32 tmp (md5S.getD i 0)) % 4294967296, b, c)

/-- Process one 16-word block. -/
def md5Block (st : Nat × Nat × Nat × Nat) (X : List Nat) :
    Nat × Nat × Nat × Nat :=
  let r := (List.range 64).foldl (md5Round X) st
  ((st.1 + r.1) % 4294967296, (st.2.1 + r.2.1) % 4294967296,
    (st.2.2.1 + r.2.2.1) % 4294967296, (st.2.2.2 + r.2.2.2) % 4294967296)

/-- The MD5 digest state of a byte message. -/
def md5Digest (msg : List Nat) : Nat × Nat × Nat × Nat :=
  (toBlocks (toWords (md5Pad msg))).foldl md5Block
    (1732584193, 4023233417, 2562383102, 271733878)

def hexDigit (n : Nat) : Char :=
  if n < 10 then Char.ofNat (48 + n) else Char.ofNat (87 + n)

/-- Lowercase hex of one 32-bit word, little-endian byte order. -/
def word32LEHex (w : Nat) : List Char :=
  [hexDigit ((w / 16) % 16), hexDigit (w % 16),
   hexDigit ((w / 4096) % 16), hexDigit ((w / 256) % 16),
   hexDigit ((w / 1048576) % 16), hexDigit ((w / 65536) % 16),
   hexDigit ((w / 268435456) % 16), hexDigit ((w / 16777216) % 16)]

/-- `createHash('md5').update(s).digest('hex')`. -/
def md5Hex (s : String) : List Char :=
  let d := md5Digest (utf8Bytes s)
  word32LEHex d.1 ++ word32LEHex d.2.1 ++ word32LEHex d.2.2.1 ++
    word32LEHex d.2.2.2

/-- Pathname of a parsed URL — the only component `generateFilename`
reads. -/
structure URLParts where
  pathname : String
deriving DecidableEq

def isAsciiLetter (c : Char) : Bool :=
  (97 ≤ c.toNat && c.toNat ≤ 122) || (65 ≤ c.toNat && c.toNat ≤ 90)

def isSchemeChar (c : Char) : Bool :=
  isAsciiLetter c || (48 ≤ c.toNat && c.toNat ≤ 57) || c = '+' || c = '-' ||
    c = '.'

def isPathEnd (c : Char) : Bool := c = '?' || c = '#'

def isAuthorityEnd (c : Char) : Bool := c = '/' || c = '?' || c = '#'

/-- Modelled platform primitive: WHATWG `new URL(url)` as used by
`generateFilename`, restricted to the shapes this tool meets — an
absolute URL with a valid scheme (a letter, then letters, digits, `+`,
`-`, `.`), then a colon. A special web scheme (http, https, ws, wss,
ftp, file) consumes any run of slashes, then a host up to the next
slash/query/fragment (an empty host throws, modelled as `none`), and its
pathname runs from there to the query or fragment (defaulting to `/`).
Any other scheme takes the rest up to a query or fragment as its opaque
pathname. Strings with no valid scheme-colon make the constructor throw:
`none`. Percent-encoding, whitespace stripping and path normalization of
the full standard are not modelled; the concrete URLs used here take the
modelled paths in node as well. -/
def parseURL (url : String) : Option URLParts :=
  let d := url.data
  let sch := d.takeWhile isSchemeChar
  match sch with
  | [] => none
  | c0 :: _ =>
      if ¬ isAsciiLetter c0 then none
      else match d.drop sch.length with
        | ':' :: rest =>
            let schemeLower := String.mk (sch.map Char.toLower)
            if schemeLower ∈ ["http", "https", "ws", "wss", "ftp", "file"] then
              let afterSlashes := rest.dropWhile (fun c => c = '/')
              let host := afterSlashes.takeWhile (fun c => !isAuthorityEnd c)
              if host.isEmpty ∧ schemeLower ≠ "file" then none
              else
                let after := afterSlashes.drop host.length
                let path := after.takeWhile (fun c => !isPathEnd c)
                some ⟨String.mk (if path.isEmpty then ['/'] else path)⟩
            else
              some ⟨String.mk (rest.takeWhile (fun c => !isPathEnd c))⟩
        | _ => none

/-- node `path.basename`: the part after the last slash, ignoring
trailing slashes. -/
def jsBasename (p : List Char) : List Char :=
  let trimmed := (p.reverse.dropWhile (fun c => c = '/')).reverse
  (trimmed.reverse.takeWhile (fun c => c ≠ '/')).reverse

/-- node `path.extname` of a basename: from the last dot to the end, but
empty when there is no dot or the only dot leads the name. -/
def jsExtname (b : List Char) : List Char :=
  let afterDot := b.reverse.takeWhile (fun c => c ≠ '.')
  if afterDot.length = b.length then []
  else if b.length - 1 - afterDot.length = 0 then []
  else '.' :: afterDot.reverse

/-- JS `s.replace(ext, '')` with a plain-string pattern: remove the first
occurrence only. -/
def replaceFirst (pat : List Char) : List Char → List Char
  | [] => []
  | c :: t =>
      if pat.isPrefixOf (c :: t) = true then (c :: t).drop pat.length
      else c :: replaceFirst pat t

def isSafeNameChar (c : Char) : Bool :=
  (97 ≤ c.toNat && c.toNat ≤ 122) || (48 ≤ c.toNat && c.toNat ≤ 57) || c = '-'

/-- The hyphen-run collapse step: each run of hyphens becomes one. -/
def collapseDashes : List Char → List Char
  | [] => []
  | [c] => [c]
  | c1 :: c2 :: t =>
      if c1 = '-' ∧ c2 = '-' then collapseDashes (c2 :: t)
      else c1 :: collapseDashes (c2 :: t)

/-- `.replace(/^-|-$/g, '')`: drop one leading and one trailing hyphen. -/
def stripEdgeDashes (l : List Char) : List Char :=
  let l1 := match l with
    | '-' :: t => t
    | other => other
  match l1.reverse with
  | '-' :: t => t.reverse
  | _ => l1

/-- The cleanup chain of `generateFilename`: lowercase, collapse
non-alphanumerics to hyphens, collapse hyphen runs, trim edge hyphens,
truncate to 50 characters. -/
def safeNameOf (l : List Char) : List Char :=
  (stripEdgeDashes (collapseDashes
    ((l.map Char.toLower).map fun c => if isSafeNameChar c then c else '-')
  )).take 50

/-- media-handler.js `generateFilename(url)`: on a parseable URL, the
sanitized basename of the path plus a hyphen, the first 8 hex characters
of the MD5 of the full URL, and the (possibly defaulted) extension;
when URL parsing throws, `image-` plus the first 12 hex characters of the
MD5 of the input and `.jpg`. -/
def generateFilename (url : String) : String :=
  match parseURL url with
  | some parts =>
      let originalName := jsBasename parts.pathname.data
      let ext0 := jsExtname originalName
      let ext := if ext0.isEmpty then ".jpg".data else ext0
      let nameWithoutExt := replaceFirst ext originalName
      let hash := (md5Hex url).take 8
      String.mk (safeNameOf nameWithoutExt ++ ('-' :: hash) ++ ext)
  | none => String.mk ("image-".data ++ (md5Hex url).take 12 ++ ".jpg".data)

/-- The first 8 hex characters of the MD5 of a url — the disambiguating
suffix `generateFilename` embeds. -/
def md5Hex8 (url : String) : List Char := (md5Hex url).take 8

set_option maxRecDepth 100000 in
/-- C5 counterexample: two distinct URLs whose paths share the basename
photo.jpg but whose filenames coincide, because the first 8 hex
characters of their MD5 digests collide (6dfe1017). -/
theorem c5_counterexample :
    ("http://cdn116178.example/photo.jpg" : String) ≠
      "http://cdn133351.example/photo.jpg" ∧
    (parseURL "http://cdn116178.example/photo.jpg").map
        (fun p => jsBasename p.pathname.data) =
      (parseURL "http://cdn133351.example/photo.jpg").map
        (fun p => jsBasename p.pathname.data) ∧
    generateFilename "http://cdn116178.example/photo.jpg" =
      generateFilename "http://cdn133351.example/photo.jpg" := by
  refine ⟨by decide, by decide, by decide⟩

theorem md5Hex_length (s : String) : (md5Hex s).length = 32 := by
  simp [md5Hex, word32LEHex]

theorem md5Hex8_length (s : String) : (md5Hex8 s).length = 8 := by
  simp [md5Hex8, List.length_take, md5Hex_length]

/-- C5 amended: filename derivation is deterministic, and for two URLs
whose paths share a basename it is collision-resistant exactly up to the
8-hex-character MD5 suffix: their filenames differ whenever the truncated
digests differ (the unrestricted claim fails when the 32-bit truncated
digests collide, as in the counterexample). -/
theorem c5_filename_amended :
    (∀ u : String, generateFilename u = generateFilename u) ∧
    (∀ (u1 u2 : String) (p1 p2 : URLParts),
      parseURL u1 = some p1 → parseURL u2 = some p2 →
      jsBasename p1.pathname.data = jsBasename p2.pathname.data →
      md5Hex8 u1 ≠ md5Hex8 u2 →
      generateFilename u1 ≠ generateFilename u2) := by
  refine ⟨fun u => rfl, ?_⟩
  intro u1 u2 p1 p2 hp1 hp2 hb hh heq
  have e1 : generateFilename u1 = String.mk
      (safeNameOf (replaceFirst
          (if (jsExtname (jsBasename p1.pathname.data)).isEmpty then ".jpg".data
            else jsExtname (jsBasename p1.pathname.data))
          (jsBasename p1.pathname.data)) ++
        ('-' :: (md5Hex u1).take 8) ++
        (if (jsExtname (jsBasename p1.pathname.data)).isEmpty then ".jpg".data
          else jsExtname (jsBasename p1.pathname.data))) := by
    simp only [generateFilename]
    rw [hp1]
  have e2 : generateFilename u2 = String.mk
      (safeNameOf (replaceFirst
          (if (jsExtname (jsBasename p2.pathname.data)).isEmpty then ".jpg".data
            else jsExtname (jsBasename p2.pathname.data))
          (jsBasename p2.pathname.data)) ++
        ('-' :: (md5Hex u2).take 8) ++
        (if (jsExtname (jsBasename p2.pathname.data)).isEmpty then ".jpg".data
          else jsExtname (jsBasename p2.pathname.data))) := by
    simp only [generateFilename]
    rw [hp2]
  rw [← hb] at e2
  rw [e1, e2] at heq
  have hdata := congrArg String.data heq
  simp only [List.append_assoc] at hdata
  have hmid := List.append_cancel_left hdata
  have hcons : (md5Hex u1).take 8 ++
      (if (jsExtname (jsBasename p1.pathname.data)).isEmpty then ".jpg".data
        else jsExtname (jsBasename p1.pathname.data)) =
      (md5Hex u2).take 8 ++
      (if (jsExtname (jsBasename p1.pathname.data)).isEmpty then ".jpg".data
        else jsExtname (jsBasename p1.pathname.data)) := by
    injection hmid
  have hlen : ((md5Hex u1).take 8).length = ((md5Hex u2).take 8).length := by
    simp [List.length_take, md5Hex_length]
  exact hh (List.append_inj_left hcons hlen)

set_option maxRecDepth 100000 in
/-- C5 amended witness: two same-basename URLs with different truncated
digests receive different filenames. -/
theorem c5_witness :
    generateFilename "http://a.example/pic.jpg" ≠
      generateFilename "http://b.example/pic.jpg" :=
  c5_filename_amended.2 "http://a.example/pic.jpg" "http://b.example/pic.jpg"
    ⟨"/pic.jpg"⟩ ⟨"/pic.jpg"⟩ (by decide) (by decide) (by decide) (by decide)

/-- C10: `generateFilename` is total by construction over arbitrary
strings, and whenever URL parsing fails (the constructor would throw) the
result is exactly `image-` followed by the first 12 hex characters of the
MD5 of the input and `.jpg`. -/
theorem c10_fallback_filename :
    ∀ url : String, parseURL url = none →
      generateFilename url =
        "image-" ++ String.mk ((md5Hex url).take 12) ++ ".jpg" := by
  intro url h
  simp only [generateFilename]
  rw [h]
  apply String.ext
  simp [String.data_append]

set_option maxRecDepth 100000 in
/-- C10 witness: a malformed asset reference gets the hash-based stable
name. -/
theorem c10_witness :
    parseURL "not a url" = none ∧
      generateFilename "not a url" =
        "image-" ++ String.mk ((md5Hex "not a url").take 12) ++ ".jpg" :=
  ⟨by decide, c10_fallback_filename "not a url" (by decide)⟩

/-! ## Import of a single item (wp-import.js `importItem`,
`importExtensionMeta`) -/

/-- A JSON object as stored in the per-item metadata group files. -/
def Obj : Type := List (String × JSValue)

/-- The observable operations of one `importItem` run: local reads,
network reads, network mutations / local file uploads, and log output. -/
inductive Effect where
  | readMetadata : Effect
  | readBody : Effect
  | loadMapping : Effect
  | readExtFiles : Effect
  | readMetaJson : Effect
  | uploadMedia : String → Effect
  | getBySlug : String → Effect
  | createItem : Effect
  | updateItem : Nat → Effect
  | putAllMeta : String → Nat → Obj → Effect
  | putMeta : String → Nat → Obj → Effect
  | logDryRun : String → Effect
  | logWarning : String → Effect

/-- The network mutations and local file uploads among the effects. -/
def isMutation : Effect → Bool
  | .uploadMedia _ => true
  | .createItem => true
  | .updateItem _ => true
  | .putAllMeta _ _ _ => true
  | .putMeta _ _ _ => true
  | _ => false

/-- Effects touching the media pipeline in any way (read, upload or
report). -/
def isMediaEffect : Effect → Bool
  | .loadMapping => true
  | .uploadMedia _ => true
  | _ => false

/-- The local-read effects. -/
def isLocalRead : Effect → Bool
  | .readMetadata => true
  | .readBody => true
  | .loadMapping => true
  | .readExtFiles => true
  | .readMetaJson => true
  | _ => false

/-- The metadata.json fields `importItem` consumes. -/
structure Metadata where
  slug : String
  title : String
  status : String
  excerpt : Option String
  template : Option String
  categories : List Nat
  tags : List Nat
  format : Option String
  sticky : Option Bool
  parent : Option Nat
  menuOrder : Option Nat

/-- The post/page payload assembled by `importItem`. -/
structure ItemData where
  title : String
  content : String
  status : String
  slug : String
  excerpt : String
  template : String
  categories : Option (List Nat) := none
  tags : Option (List Nat) := none
  format : Option String := none
  sticky : Option Bool := none
  parent : Option Nat := none
  menuOrder : Option Nat := none

/-- wp-import.js `importItem` lines building `itemData`: the common
fields, then the post-only fields (categories and tags when non-empty,
format when truthy, sticky when defined) or the page-only fields (parent
and menu order when truthy). -/
def buildItemData (m : Metadata) (content : String) (typePosts : Bool) :
    ItemData :=
  let base : ItemData :=
    { title := m.title, content := content, status := m.status,
      slug := m.slug, excerpt := m.excerpt.getD "",
      template := m.template.getD "" }
  if typePosts then
    { base with
      categories := if 0 < m.categories.length then some m.categories else none,
      tags := if 0 < m.tags.length then some m.tags else none,
      format := match m.format with
        | some f => if f ≠ "" then some f else none
        | none => none,
      sticky := m.sticky }
  else
    { base with
      parent := match m.parent with
        | some p => if p ≠ 0 then some p else none
        | none => none,
      menuOrder := match m.menuOrder with
        | some o => if o ≠ 0 then some o else none
        | none => none }

/-- The REST endpoint prefix: `/posts` for posts, `/pages` for pages. -/
def endpointOf (typePosts : Bool) : String :=
  if typePosts then "/posts" else "/pages"

/-- The merge of all per-item metadata group files (skipping
metadata.json, media-mapping.json and meta.json) plus meta.json, into one
flat object, later keys overwriting earlier ones. -/
def mergeMeta (extFiles : List (String × Obj)) (metaFileExists : Bool)
    (metaFile : Obj) : Obj :=
  let fromExt := (extFiles.filter fun f =>
      ¬ ["metadata.json", "media-mapping.json", "meta.json"].contains f.1
    ).foldl (fun acc f => objAssign acc f.2) []
  if metaFileExists then objAssign fromExt metaFile else fromExt

/-- The extension names reported by `importExtensionMeta`:
`file.replace('.json', '')` for each group file. -/
def extNamesOf (extFiles : List (String × Obj)) : List String :=
  (extFiles.filter fun f =>
      ¬ ["metadata.json", "media-mapping.json", "meta.json"].contains f.1
    ).map fun f => String.mk (replaceFirst ".json".data f.1.data)

/-- wp-import.js `importExtensionMeta(client, contentDir, postId, type,
dryRun)`: read and merge the group files and meta.json; when something is
there and this is not a dry run, PUT the combined object as `all_meta`;
on rejection retry the same object as `meta`; when that also fails, log a
warning. Returns the effect trace and the imported extension names.
`allMetaOk` / `metaOk` model whether the backend accepts each request. -/
def importExtensionMeta (extFiles : List (String × Obj))
    (metaFileExists : Bool) (metaFile : Obj) (postId : Nat)
    (typePosts : Bool) (dryRun : Bool) (allMetaOk metaOk : Bool) :
    List Effect × List String :=
  let reads := [Effect.readExtFiles] ++
    (if metaFileExists then [Effect.readMetaJson] else [])
  let metaToImport := mergeMeta extFiles metaFileExists metaFile
  let importedExtensions := extNamesOf extFiles
  if metaToImport.isEmpty then (reads, importedExtensions)
  else if dryRun then (reads, importedExtensions)
  else if allMetaOk then
    (reads ++ [Effect.putAllMeta (endpointOf typePosts) postId metaToImport],
      importedExtensions)
  else if metaOk then
    (reads ++ [Effect.putAllMeta (endpointOf typePosts) postId metaToImport,
      Effect.putMeta (endpointOf typePosts) postId metaToImport],
      importedExtensions)
  else
    (reads ++ [Effect.putAllMeta (endpointOf typePosts) postId metaToImport,
      Effect.putMeta (endpointOf typePosts) postId metaToImport,
      Effect.logWarning "Could not import meta"],
      importedExtensions)

/-- The media-extension allow-list of `uploadAllMedia`. -/
def hasMediaExt (f : String) : Bool :=
  [".jpg", ".jpeg", ".png", ".gif", ".webp", ".svg", ".pdf"].any fun ext =>
    ext.data.isSuffixOf (f.data.map Char.toLower)

/-- The outcome `importItem` reports for one item. -/
inductive ImportResult where
  | skipped : String → String → ImportResult
  | wouldDo : String → String → ImportResult
  | done : String → String → Nat → List String → ImportResult

/-- The environment of one `importItem` run: the item's local files, the
CLI options, and the behaviour of the remote backend. -/
structure ImportEnv where
  slug : String
  typePosts : Bool
  importMode : String
  dryRun : Bool
  mediaOption : Bool
  metadata : Option Metadata
  bodyHtml : Option String
  mediaMapping : List (String × String)
  mediaDirFiles : List String
  uploadResults : List (String × Option String)
  existing : Option Nat
  createdId : Nat
  createOk : Bool
  updateOk : Bool
  extFiles : List (String × Obj)
  metaFileExists : Bool
  metaFile : Obj
  allMetaOk : Bool
  metaOk : Bool

/-- wp-import.js `importItem(slug, type, config, client, stats)`: read
metadata.json (throwing when absent) and body.html (empty content when
absent); unless media is disabled or this is a dry run, load the media
mapping and, when non-empty, upload the media files and restore content
URLs from the successes; look up the remote item by slug; decide the
action from the mode; return a skip record, or on a dry run report the
would-be action; otherwise create or update (propagating failure), then
bring in the extension meta, and return the result. -/
def importItem (env : ImportEnv) : Except String ImportResult × List Effect :=
  match env.metadata with
  | none => (.error "metadata.json not found", [Effect.readMetadata])
  | some md =>
      let content := env.bodyHtml.getD ""
      let mediaPhase : String × List Effect :=
        if env.mediaOption ∧ ¬ env.dryRun then
          if 0 < env.mediaMapping.length then
            let files := env.mediaDirFiles.filter hasMediaExt
            let mapping := files.filterMap fun f =>
              match (env.uploadResults.find? fun kv => kv.1 == f) with
              | some (_, some url) => some (f, url)
              | _ => none
            let c2 := if 0 < mapping.length then restoreMediaUrls content mapping
              else content
            (c2, [Effect.loadMapping] ++ files.map Effect.uploadMedia)
          else (content, [Effect.loadMapping])
        else (content, [])
      let e2 := [Effect.readMetadata, Effect.readBody] ++ mediaPhase.2 ++
        [Effect.getBySlug md.slug]
      let action := decideAction env.importMode env.existing.isSome
      if action = "skip" then
        (.ok (.skipped env.slug (skipReason env.existing.isSome)), e2)
      else
        let itemData := buildItemData md mediaPhase.1 env.typePosts
        if env.dryRun then
          (.ok (.wouldDo env.slug ("would-" ++ action)),
            e2 ++ [Effect.logDryRun ("Would " ++ action ++ " " ++
              (if env.typePosts then "posts" else "pages") ++ "/" ++ env.slug)])
        else
          let created : Except String (Nat × List Effect) :=
            if action = "create" then
              if env.createOk then .ok (env.createdId, [Effect.createItem])
              else .error "create failed"
            else
              if env.updateOk then
                .ok (env.existing.getD 0, [Effect.updateItem (env.existing.getD 0)])
              else .error "update failed"
          match created with
          | .error msg => (.error msg, e2)
          | .ok (id, ec) =>
              let meta := importExtensionMeta env.extFiles env.metaFileExists
                env.metaFile id env.typePosts env.dryRun env.allMetaOk env.metaOk
              (.ok (.done env.slug action id meta.2), e2 ++ ec ++ meta.1)

theorem importExtensionMeta_snd (ef : List (String × Obj)) (mfe : Bool)
    (mf : Obj) (pid : Nat) (tp d a m : Bool) :
    (importExtensionMeta ef mfe mf pid tp d a m).2 = extNamesOf ef := by
  simp only [importExtensionMeta]
  repeat' split
  all_goals rfl

theorem importExtensionMeta_fst (ef : List (String × Obj)) (mfe : Bool)
    (mf : Obj) (pid : Nat) (tp a m : Bool)
    (hne : mergeMeta ef mfe mf ≠ []) :
    (importExtensionMeta ef mfe mf pid tp false a m).1 =
      ([Effect.readExtFiles] ++ (if mfe then [Effect.readMetaJson] else [])) ++
      (if a then
        [Effect.putAllMeta (endpointOf tp) pid (mergeMeta ef mfe mf)]
      else if m then
        [Effect.putAllMeta (endpointOf tp) pid (mergeMeta ef mfe mf),
         Effect.putMeta (endpointOf tp) pid (mergeMeta ef mfe mf)]
      else
        [Effect.putAllMeta (endpointOf tp) pid (mergeMeta ef mfe mf),
         Effect.putMeta (endpointOf tp) pid (mergeMeta ef mfe mf),
         Effect.logWarning "Could not import meta"]) := by
  have hie : (mergeMeta ef mfe mf).isEmpty = false := by
    cases hmm : mergeMeta ef mfe mf with
    | nil => exact absurd hmm hne
    | cons x l => rfl
  cases a <;> cases m <;> simp [importExtensionMeta, hie]

theorem decideAction_cases (m : String) (e : Bool) :
    decideAction m e = "create" ∨ decideAction m e = "update" ∨
    decideAction m e = "skip" := by
  unfold decideAction
  repeat' split
  all_goals simp

theorem importItem_success (env : ImportEnv) (md : Metadata)
    (hmd : env.metadata = some md) (hdry : env.dryRun = false)
    (hact : decideAction env.importMode env.existing.isSome ≠ "skip")
    (hcr : env.createOk = true) (hup : env.updateOk = true) :
    (importItem env).1 = .ok (.done env.slug
      (decideAction env.importMode env.existing.isSome)
      (if decideAction env.importMode env.existing.isSome = "create"
        then env.createdId else env.existing.getD 0)
      (extNamesOf env.extFiles)) := by
  by_cases hc : decideAction env.importMode env.existing.isSome = "create"
  · simp [importItem, hmd, hdry, hact, hc, hcr, importExtensionMeta_snd]
  · simp [importItem, hmd, hdry, hact, hc, hup, importExtensionMeta_snd]

/-- C8: after a successful create or update of an item (dry run off, the
reconciliation action not a skip, the backend accepting the write), the
item is reported as succeeded with the same create/update result no
matter how the metadata pushes fare; and the metadata phase merges the
group files and meta.json into one flat object, pushes it once as a
combined all_meta update, on rejection retries the very same object
through the narrower meta channel, and when that also fails emits a
warning instead of failing the item. -/
theorem c8_meta_fallback (env : ImportEnv) (md : Metadata)
    (hmd : env.metadata = some md) (hdry : env.dryRun = false)
    (hact : decideAction env.importMode env.existing.isSome ≠ "skip")
    (hcr : env.createOk = true) (hup : env.updateOk = true) :
    (∀ a m, (importItem { env with allMetaOk := a, metaOk := m }).1 =
      .ok (.done env.slug (decideAction env.importMode env.existing.isSome)
        (if decideAction env.importMode env.existing.isSome = "create"
          then env.createdId else env.existing.getD 0)
        (extNamesOf env.extFiles))) ∧
    (∀ (ef : List (String × Obj)) (mfe : Bool) (mf : Obj) (pid : Nat)
      (tp : Bool), mergeMeta ef mfe mf ≠ [] →
      (((importExtensionMeta ef mfe mf pid tp false true true).1.filter
          fun e => ! isLocalRead e) =
        [Effect.putAllMeta (endpointOf tp) pid (mergeMeta ef mfe mf)]) ∧
      (((importExtensionMeta ef mfe mf pid tp false false true).1.filter
          fun e => ! isLocalRead e) =
        [Effect.putAllMeta (endpointOf tp) pid (mergeMeta ef mfe mf),
         Effect.putMeta (endpointOf tp) pid (mergeMeta ef mfe mf)]) ∧
      (((importExtensionMeta ef mfe mf pid tp false false false).1.filter
          fun e => ! isLocalRead e) =
        [Effect.putAllMeta (endpointOf tp) pid (mergeMeta ef mfe mf),
         Effect.putMeta (endpointOf tp) pid (mergeMeta ef mfe mf),
         Effect.logWarning "Could not import meta"]) ∧
      (∀ a m, (importExtensionMeta ef mfe mf pid tp false a m).2 =
        extNamesOf ef)) := by
  constructor
  · intro a m
    exact importItem_success { env with allMetaOk := a, metaOk := m } md
      hmd hdry hact hcr hup
  · intro ef mfe mf pid tp hne
    refine ⟨?_, ?_, ?_, fun a m => importExtensionMeta_snd ef mfe mf pid tp false a m⟩
    · rw [importExtensionMeta_fst ef mfe mf pid tp true true hne]
      cases mfe <;> simp [isLocalRead]
    · rw [importExtensionMeta_fst ef mfe mf pid tp false true hne]
      cases mfe <;> simp [isLocalRead]
    · rw [importExtensionMeta_fst ef mfe mf pid tp false false hne]
      cases mfe <;> simp [isLocalRead]

/-- A concrete item: one extension group file, no meta.json, create mode
against an empty site, both metadata pushes rejected. -/
def mdC8 : Metadata :=
  { slug := "s", title := "T", status := "publish", excerpt := none,
    template := none, categories := [], tags := [], format := none,
    sticky := none, parent := none, menuOrder := none }

def envC8 : ImportEnv :=
  { slug := "s", typePosts := true, importMode := "create", dryRun := false,
    mediaOption := false, metadata := some mdC8, bodyHtml := some "<p>x</p>",
    mediaMapping := [], mediaDirFiles := [], uploadResults := [],
    existing := none, createdId := 7, createOk := true, updateOk := true,
    extFiles := [("seo.json", [("_seo_title", JSValue.str "T")])],
    metaFileExists := false, metaFile := [], allMetaOk := false,
    metaOk := false }

theorem c8_witness :
    (importItem envC8).1 = .ok (.done "s" "create" 7 ["seo"]) ∧
    ((importExtensionMeta [("seo.json", [("_seo_title", JSValue.str "T")])]
        false [] 7 true false false false).1.filter
      fun e => ! isLocalRead e) =
      [Effect.putAllMeta "/posts" 7 [("_seo_title", JSValue.str "T")],
       Effect.putMeta "/posts" 7 [("_seo_title", JSValue.str "T")],
       Effect.logWarning "Could not import meta"] := by
  have hne : mergeMeta [("seo.json", [("_seo_title", JSValue.str "T")])]
      false ([] : Obj) ≠ [] := by
    have e : mergeMeta [("seo.json", [("_seo_title", JSValue.str "T")])]
        false ([] : Obj) = [("_seo_title", JSValue.str "T")] := rfl
    rw [e]
    exact List.cons_ne_nil _ _
  have h := c8_meta_fallback envC8 mdC8 rfl rfl (by decide) rfl rfl
  exact ⟨h.1 false false,
    (h.2 [("seo.json", [("_seo_title", JSValue.str "T")])] false [] 7 true hne).2.2.1⟩

/-- A dry-run import of a page with a non-empty media mapping and a media
file on disk: exactly the situation where the real run would upload. -/
def mdC9 : Metadata :=
  { slug := "p", title := "P", status := "draft", excerpt := none,
    template := none, categories := [], tags := [], format := none,
    sticky := none, parent := none, menuOrder := none }

def envC9 : ImportEnv :=
  { slug := "p", typePosts := false, importMode := "sync", dryRun := true,
    mediaOption := true,
    metadata := some mdC9,
    bodyHtml := some "<img src=./media/a-12345678.jpg>",
    mediaMapping := [("http://s/a.jpg", "a-12345678.jpg")],
    mediaDirFiles := ["a-12345678.jpg"],
    uploadResults := [("a-12345678.jpg", some "http://w/a.jpg")],
    existing := none, createdId := 3, createOk := true, updateOk := true,
    extFiles := [], metaFileExists := false, metaFile := [],
    allMetaOk := true, metaOk := true }

/-- C9 counterexample: the claim also promises that a dry run reports the
would-be media operations. It does not: on `envC9` the media mapping is
non-empty and a media file is present, yet the dry-run trace is only the
two local reads, the existence lookup and the would-create log - the
media block (even its media-mapping read) is skipped entirely, so no
would-be media operation is computed or reported. -/
theorem c9_counterexample :
    envC9.dryRun = true ∧ envC9.mediaMapping ≠ [] ∧
    envC9.mediaDirFiles ≠ [] ∧
    (importItem envC9).2 = [Effect.readMetadata, Effect.readBody,
      Effect.getBySlug "p", Effect.logDryRun "Would create pages/p"] ∧
    ((importItem envC9).2.any isMediaEffect) = false := by
  refine ⟨rfl, ?_, ?_, rfl, rfl⟩
  · exact fun h => List.noConfusion h
  · exact fun h => List.noConfusion h

/-- C9 (amended): in dry-run mode `importItem` performs no network
mutation and no upload - every effect in its trace is a non-mutation and
in fact nothing media-related happens at all - while it still reads
metadata.json and body.html and performs the existence lookup, and it
reports the would-be reconciliation action. (The unamended claim also
promised a report of the would-be media operations; see the
counterexample.) -/
theorem c9_dry_run_amended (env : ImportEnv) (hdry : env.dryRun = true) :
    ((importItem env).2.all fun e => ! isMutation e) = true ∧
    ((importItem env).2.all fun e => ! isMediaEffect e) = true ∧
    Effect.readMetadata ∈ (importItem env).2 ∧
    (∀ md, env.metadata = some md →
      Effect.readBody ∈ (importItem env).2 ∧
      Effect.getBySlug md.slug ∈ (importItem env).2 ∧
      (decideAction env.importMode env.existing.isSome ≠ "skip" →
        (importItem env).1 = .ok (.wouldDo env.slug
          ("would-" ++ decideAction env.importMode env.existing.isSome)))) := by
  cases hmd : env.metadata with
  | none => simp [importItem, hmd, isMutation, isMediaEffect]
  | some md0 =>
      by_cases hsk : decideAction env.importMode env.existing.isSome = "skip"
      · simp [importItem, hmd, hdry, hsk, isMutation, isMediaEffect]
      · simp [importItem, hmd, hdry, hsk, isMutation, isMediaEffect]

theorem c9_witness :
    envC9.dryRun = true ∧
    ((importItem envC9).2.all fun e => ! isMutation e) = true ∧
    (importItem envC9).1 = .ok (.wouldDo "p" "would-create") := by
  have h := c9_dry_run_amended envC9 rfl
  exact ⟨rfl, h.1, (h.2.2.2 mdC9 rfl).2.2 (by decide)⟩
